import Mathlib

/-!
Verification of the face-recognition server's vector-index, cache, batch and
metrics layers. JavaScript Map objects are embedded as insertion-ordered
association lists over Nat keys; external collaborators (the hnswlib graph,
the md5 hash, the face detector) enter as explicit oracle parameters.
-/

namespace FaceRec

/-- Association-list lookup, standing for JavaScript Map.get over Nat keys. -/
def mget {β : Type} (m : List (Nat × β)) (k : Nat) : Option β :=
  match m with
  | [] => none
  | p :: rest => if p.1 = k then some p.2 else mget rest k

/-- Map.set semantics: replace the value in place when the key exists, append otherwise. -/
def mset {β : Type} (m : List (Nat × β)) (k : Nat) (v : β) : List (Nat × β) :=
  match m with
  | [] => [(k, v)]
  | p :: rest => if p.1 = k then (k, v) :: rest else p :: mset rest k v

/-- Map.delete semantics: drop the entry carrying the given key. -/
def mdel {β : Type} (m : List (Nat × β)) (k : Nat) : List (Nat × β) :=
  match m with
  | [] => []
  | p :: rest => if p.1 = k then mdel rest k else p :: mdel rest k

/-- Key list of a map. -/
def keys {β : Type} (m : List (Nat × β)) : List Nat := m.map Prod.fst

@[simp]
theorem mget_nil {β : Type} (k : Nat) : mget ([] : List (Nat × β)) k = none := rfl

@[simp]
theorem keys_nil {β : Type} : keys ([] : List (Nat × β)) = [] := rfl

@[simp]
theorem keys_cons {β : Type} (p : Nat × β) (m : List (Nat × β)) :
    keys (p :: m) = p.1 :: keys m := rfl

theorem mget_eq_none_iff {β : Type} (m : List (Nat × β)) (k : Nat) :
    mget m k = none ↔ k ∉ keys m := by
  induction m with
  | nil => simp
  | cons p rest ih =>
    by_cases h : p.1 = k
    · simp [mget, h]
    · simp [mget, h, ih, keys]
      intro hk
      exact fun hek => h hek.symm

theorem mget_isSome_iff {β : Type} (m : List (Nat × β)) (k : Nat) :
    (mget m k).isSome = true ↔ k ∈ keys m := by
  rcases h : mget m k with _ | v
  · simp [(mget_eq_none_iff m k).mp h]
  · simp only [Option.isSome_some, true_iff]
    by_contra hk
    rw [(mget_eq_none_iff m k).mpr hk] at h
    exact Option.noConfusion h

theorem mget_mem {β : Type} {m : List (Nat × β)} {k : Nat} {v : β}
    (h : mget m k = some v) : (k, v) ∈ m := by
  induction m with
  | nil => simp [mget] at h
  | cons p rest ih =>
    obtain ⟨a, b⟩ := p
    by_cases hp : a = k
    · simp only [mget, hp, if_pos] at h
      subst hp
      rw [Option.some_inj] at h
      subst h
      exact List.mem_cons_self _ _
    · simp only [mget, hp, if_neg, not_false_iff] at h
      exact List.mem_cons_of_mem _ (ih h)

theorem mem_mget {β : Type} {m : List (Nat × β)} {k : Nat} {v : β}
    (hnd : (keys m).Nodup) (h : (k, v) ∈ m) : mget m k = some v := by
  induction m with
  | nil => simp at h
  | cons p rest ih =>
    simp only [keys, List.map_cons, List.nodup_cons] at hnd
    rcases List.mem_cons.mp h with h1 | h1
    · simp [mget, ← h1]
    · have hk : p.1 ≠ k := by
        intro he
        exact hnd.1 (he ▸ (List.mem_map.mpr ⟨(k, v), h1, rfl⟩))
      simp only [mget, hk, if_neg, not_false_iff]
      exact ih hnd.2 h1

@[simp]
theorem mget_mset_self {β : Type} (m : List (Nat × β)) (k : Nat) (v : β) :
    mget (mset m k v) k = some v := by
  induction m with
  | nil => simp [mset, mget]
  | cons p rest ih =>
    by_cases h : p.1 = k
    · simp [mset, h, mget]
    · simp [mset, h, mget, ih]

theorem mget_mset_ne {β : Type} (m : List (Nat × β)) {k k2 : Nat} (v : β)
    (h : k2 ≠ k) : mget (mset m k v) k2 = mget m k2 := by
  have hk : ¬(k = k2) := fun he => h he.symm
  induction m with
  | nil => simp [mset, mget, hk]
  | cons p rest ih =>
    by_cases hp : p.1 = k
    · subst hp
      simp [mset, mget, hk]
    · simp only [mset, hp, if_neg, not_false_iff, mget]
      by_cases hq : p.1 = k2
      · simp [hq]
      · simp [hq, ih]

theorem mset_of_not_mem {β : Type} {m : List (Nat × β)} {k : Nat} (v : β)
    (h : k ∉ keys m) : mset m k v = m ++ [(k, v)] := by
  induction m with
  | nil => simp [mset]
  | cons p rest ih =>
    simp only [keys, List.map_cons, List.mem_cons] at h
    push_neg at h
    have hp : ¬(p.1 = k) := fun he => h.1 he.symm
    simp [mset, hp, ih (by simpa [keys] using h.2)]

theorem keys_mset_of_mem {β : Type} {m : List (Nat × β)} {k : Nat} (v : β)
    (h : k ∈ keys m) : keys (mset m k v) = keys m := by
  induction m with
  | nil => simp at h
  | cons p rest ih =>
    by_cases hp : p.1 = k
    · simp [mset, hp, keys]
    · have hmem : k ∈ keys rest := by
        rcases List.mem_cons.mp h with h1 | h1
        · exact absurd h1.symm hp
        · exact h1
      have ihr := ih hmem
      simp only [mset, hp, if_neg, not_false_iff, keys_cons]
      rw [show keys (mset rest k v) = keys rest from ihr]

theorem length_mset_of_mem {β : Type} {m : List (Nat × β)} {k : Nat} (v : β)
    (h : k ∈ keys m) : (mset m k v).length = m.length := by
  have h1 : (keys (mset m k v)).length = (keys m).length := by
    rw [keys_mset_of_mem v h]
  simpa [keys] using h1

theorem length_mset_of_not_mem {β : Type} {m : List (Nat × β)} {k : Nat} (v : β)
    (h : k ∉ keys m) : (mset m k v).length = m.length + 1 := by
  simp [mset_of_not_mem v h]

@[simp]
theorem mget_mdel_self {β : Type} (m : List (Nat × β)) (k : Nat) :
    mget (mdel m k) k = none := by
  induction m with
  | nil => simp [mdel]
  | cons p rest ih =>
    by_cases hp : p.1 = k
    · simp [mdel, hp, ih]
    · simp [mdel, hp, mget, ih]

theorem mget_mdel_ne {β : Type} (m : List (Nat × β)) {k k2 : Nat}
    (h : k2 ≠ k) : mget (mdel m k) k2 = mget m k2 := by
  have hk : ¬(k = k2) := fun he => h he.symm
  induction m with
  | nil => simp [mdel]
  | cons p rest ih =>
    by_cases hp : p.1 = k
    · have hne : ¬(p.1 = k2) := fun he => h (he.symm.trans hp)
      simp [mdel, hp, mget, hne, ih, hk, h]
    · by_cases hq : p.1 = k2
      · simp [mdel, hp, mget, hq, ih, hk, h]
      · simp [mdel, hp, mget, hq, ih, hk, h]

theorem keys_mdel_sublist {β : Type} (m : List (Nat × β)) (k : Nat) :
    (keys (mdel m k)).Sublist (keys m) := by
  induction m with
  | nil => simp [mdel]
  | cons p rest ih =>
    by_cases hp : p.1 = k
    · simp only [mdel, hp, if_pos, keys_cons]
      exact ih.trans (List.sublist_cons_self _ _)
    · simp only [mdel, hp, if_neg, not_false_iff, keys_cons]
      exact ih.cons₂ _

theorem nodup_keys_mdel {β : Type} {m : List (Nat × β)} (k : Nat)
    (h : (keys m).Nodup) : (keys (mdel m k)).Nodup :=
  (keys_mdel_sublist m k).nodup h

theorem mem_mdel {β : Type} {m : List (Nat × β)} {k : Nat} {p : Nat × β}
    (h : p ∈ mdel m k) : p ∈ m ∧ p.1 ≠ k := by
  induction m with
  | nil => simp [mdel] at h
  | cons q rest ih =>
    by_cases hq : q.1 = k
    · simp only [mdel, hq, if_pos] at h
      rcases ih h with ⟨h1, h2⟩
      exact ⟨List.mem_cons_of_mem _ h1, h2⟩
    · simp only [mdel, hq, if_neg, not_false_iff] at h
      rcases List.mem_cons.mp h with h1 | h1
      · exact ⟨h1 ▸ List.mem_cons_self q rest, h1 ▸ hq⟩
      · rcases ih h1 with ⟨h2, h3⟩
        exact ⟨List.mem_cons_of_mem _ h2, h3⟩

theorem mdel_eq_self_of_forall {β : Type} {m : List (Nat × β)} {k : Nat}
    (h : ∀ p ∈ m, p.1 ≠ k) : mdel m k = m := by
  induction m with
  | nil => simp [mdel]
  | cons q rest ih =>
    have hq : ¬(q.1 = k) := h q (List.mem_cons_self _ _)
    simp [mdel, hq, ih (fun p hp => h p (List.mem_cons_of_mem _ hp))]

theorem length_mdel_of_mem {β : Type} {m : List (Nat × β)} {k : Nat}
    (hnd : (keys m).Nodup) (h : k ∈ keys m) :
    (mdel m k).length + 1 = m.length := by
  induction m with
  | nil => simp at h
  | cons p rest ih =>
    simp only [keys, List.map_cons, List.nodup_cons] at hnd
    by_cases hp : p.1 = k
    · have hrest : mdel rest k = rest := by
        apply mdel_eq_self_of_forall
        intro q hq he
        exact hnd.1 (by
          rw [hp, ← he]
          exact List.mem_map.mpr ⟨q, hq, rfl⟩)
      simp [mdel, hp, hrest]
    · have hmem : k ∈ keys rest := by
        rcases List.mem_cons.mp h with h1 | h1
        · exact absurd h1.symm hp
        · exact h1
      have := ih hnd.2 hmem
      simp only [mdel, hp, if_neg, not_false_iff, List.length_cons]
      omega

theorem mdel_of_not_mem {β : Type} {m : List (Nat × β)} {k : Nat}
    (h : k ∉ keys m) : mdel m k = m := by
  induction m with
  | nil => simp [mdel]
  | cons p rest ih =>
    simp only [keys_cons, List.mem_cons] at h
    push_neg at h
    have hp : ¬(p.1 = k) := fun he => h.1 he.symm
    simp [mdel, hp, ih h.2]

theorem mem_mset {β : Type} {m : List (Nat × β)} {k : Nat} {v : β} {p : Nat × β}
    (h : p ∈ mset m k v) : p ∈ m ∨ p = (k, v) := by
  induction m with
  | nil =>
    simp [mset] at h
    right
    exact h
  | cons q rest ih =>
    by_cases hq : q.1 = k
    · simp only [mset, hq, if_pos] at h
      rcases List.mem_cons.mp h with h1 | h1
      · right; exact h1
      · left; exact List.mem_cons_of_mem _ h1
    · simp only [mset, hq, if_neg, not_false_iff] at h
      rcases List.mem_cons.mp h with h1 | h1
      · left; exact h1 ▸ List.mem_cons_self q rest
      · rcases ih h1 with h2 | h2
        · left; exact List.mem_cons_of_mem _ h2
        · right; exact h2

theorem nodup_keys_mset {β : Type} {m : List (Nat × β)} {k : Nat} (v : β)
    (h : (keys m).Nodup) : (keys (mset m k v)).Nodup := by
  by_cases hk : k ∈ keys m
  · rw [keys_mset_of_mem v hk]
    exact h
  · rw [mset_of_not_mem v hk]
    simp only [keys, List.map_append, List.map_cons, List.map_nil]
    rw [List.nodup_append]
    refine ⟨h, by simp, ?_⟩
    intro a ha hb
    simp at hb
    exact hk (hb ▸ ha)

/-- Metadata kept per index label (userId plus the spread user meta fields). -/
structure UserMeta where
  userId : Nat
  ci : String
  name : String
  idCliente : Nat
deriving DecidableEq, Repr

/-- Capacity constant MAX_ELEMENTS of the HNSW service. -/
def MAX_ELEMENTS : Nat := 1100000

/-- State of HNSWService: the two side maps, the label counter, the init flag,
the stats.totalVectors counter, and the number of points physically present in
the external hnswlib graph (marked-deleted points included). -/
structure HNSWState where
  idMap : List (Nat × UserMeta)
  reverseIdMap : List (Nat × Nat)
  nextLabel : Nat
  isInitialized : Bool
  totalVectors : Nat
  elementCount : Nat
deriving DecidableEq, Repr

/-- Errors an index mutation can surface. -/
inductive HErr where
  | notInitialized
  | capacityExceeded
deriving DecidableEq, Repr

/-- Outcome of one index mutation: the state left behind, whether saveIndex ran,
and the error thrown if any. -/
structure OpResult where
  st : HNSWState
  saved : Bool
  err : Option HErr
deriving DecidableEq, Repr

/-- Modelled from the spec: the hnswlib graph is external library code absent from
the repository; per the spec (CapacityExceeded if totalVectors reaches maxElements)
its addPoint rejects an insertion once the graph already holds maxElements points. -/
def graphFull (elementCount : Nat) : Bool := decide (MAX_ELEMENTS ≤ elementCount)

/-- Embeds the body of HNSWService.updateUser once the userId is known to be
mapped: markDelete the old label, allocate a new one, addPoint, swap both maps.
The nextLabel increment precedes addPoint, so a capacity failure still burns a
label; markDelete does not change the graph's element count. -/
def updateUserGo (st : HNSWState) (userId : Nat) (meta : UserMeta) : OpResult :=
  match mget st.reverseIdMap userId with
  | none => ⟨st, false, none⟩
  | some label =>
    let newLabel := st.nextLabel
    let st1 := { st with nextLabel := st.nextLabel + 1 }
    if graphFull st1.elementCount then ⟨st1, false, some .capacityExceeded⟩
    else
      ⟨{ st1 with
          elementCount := st1.elementCount + 1,
          idMap := mset (mdel st1.idMap label) newLabel { meta with userId },
          reverseIdMap := mset st1.reverseIdMap userId newLabel },
        false, none⟩

/-- Embeds HNSWService.addUser: reject when uninitialized, delegate to update
for an existing userId, otherwise allocate label = nextLabel++, addPoint, set
both maps, bump totalVectors, and run saveIndex when totalVectors hits a
multiple of 100. -/
def addUser (st : HNSWState) (userId : Nat) (meta : UserMeta) : OpResult :=
  if st.isInitialized = false then ⟨st, false, some .notInitialized⟩
  else if (mget st.reverseIdMap userId).isSome then updateUserGo st userId meta
  else
    let label := st.nextLabel
    let st1 := { st with nextLabel := st.nextLabel + 1 }
    if graphFull st1.elementCount then ⟨st1, false, some .capacityExceeded⟩
    else
      let st2 := { st1 with
        elementCount := st1.elementCount + 1,
        idMap := mset st1.idMap label { meta with userId },
        reverseIdMap := mset st1.reverseIdMap userId label,
        totalVectors := st1.totalVectors + 1 }
      if st2.totalVectors % 100 = 0 then ⟨st2, true, none⟩
      else ⟨st2, false, none⟩

/-- Embeds HNSWService.updateUser: delegate to addUser when the userId is not
mapped, otherwise run the replace path. -/
def updateUser (st : HNSWState) (userId : Nat) (meta : UserMeta) : OpResult :=
  if (mget st.reverseIdMap userId).isSome = false then addUser st userId meta
  else updateUserGo st userId meta

/-- Embeds HNSWService.removeUser: no-op on an unmapped userId, otherwise
markDelete the label, drop both map entries and decrement totalVectors,
clamped at 0 by Math.max. -/
def removeUser (st : HNSWState) (userId : Nat) : OpResult :=
  match mget st.reverseIdMap userId with
  | none => ⟨st, false, none⟩
  | some label =>
    ⟨{ st with
        idMap := mdel st.idMap label,
        reverseIdMap := mdel st.reverseIdMap userId,
        totalVectors := st.totalVectors - 1 },
      false, none⟩

/-- Embeds HNSWService.size, which returns stats.totalVectors. -/
def size (st : HNSWState) : Nat := st.totalVectors

/-- State right after initialize() ran createIndex on a fresh service. -/
def initializedEmpty : HNSWState :=
  { idMap := [], reverseIdMap := [], nextLabel := 0, isInitialized := true,
    totalVectors := 0, elementCount := 0 }

/-- One index mutation, for quantifying over operation sequences. -/
inductive Op where
  | add (userId : Nat) (meta : UserMeta)
  | update (userId : Nat) (meta : UserMeta)
  | remove (userId : Nat)

/-- Applies one mutation, keeping whatever state the call left behind
(also on a thrown error, mirroring the JavaScript mutations already done). -/
def applyOp (st : HNSWState) : Op → HNSWState
  | .add u m => (addUser st u m).st
  | .update u m => (updateUser st u m).st
  | .remove u => (removeUser st u).st

/-- Applies a sequence of mutations left to right. -/
def applyOps (st : HNSWState) (ops : List Op) : HNSWState := ops.foldl applyOp st

/-- Content of the two files written by HNSWService.saveIndex: the graph file
(of which only the point count is observable here) and the JSON metadata with
nextLabel and both entry arrays, Array.from over the insertion-ordered Maps. -/
structure SavedFiles where
  graphCount : Nat
  nextLabel : Nat
  idMapEntries : List (Nat × UserMeta)
  reverseIdMapEntries : List (Nat × Nat)
deriving DecidableEq, Repr

/-- Embeds HNSWService.saveIndex: writeIndex plus JSON.stringify of the meta. -/
def saveIndex (st : HNSWState) : SavedFiles :=
  ⟨st.elementCount, st.nextLabel, st.idMap, st.reverseIdMap⟩

/-- Construction new Map(entries): successive Map.set over the entry list.
The parseInt applied to each serialized key is the identity on Nat keys. -/
def mkMap {β : Type} (l : List (Nat × β)) : List (Nat × β) :=
  l.foldl (fun m p => mset m p.1 p.2) []

/-- Embeds HNSWService.loadIndex as run from initialize(): read the graph file,
rebuild both Maps from the metadata entries, restore nextLabel, and set
stats.totalVectors to idMap.size; initialize() then flags the service ready. -/
def loadIndex (files : SavedFiles) : HNSWState :=
  let idMap := mkMap files.idMapEntries
  { idMap := idMap,
    reverseIdMap := mkMap files.reverseIdMapEntries,
    nextLabel := files.nextLabel,
    isInitialized := true,
    totalVectors := idMap.length,
    elementCount := files.graphCount }

theorem foldl_mset_eq_append {β : Type} (l : List (Nat × β)) :
    ∀ acc : List (Nat × β), (∀ k ∈ keys l, k ∉ keys acc) → (keys l).Nodup →
      l.foldl (fun m p => mset m p.1 p.2) acc = acc ++ l := by
  induction l with
  | nil => intro acc _ _; simp
  | cons p rest ih =>
    intro acc hd hl
    simp only [keys_cons, List.nodup_cons] at hl
    simp only [List.foldl_cons]
    rw [mset_of_not_mem p.2 (hd p.1 (by simp [keys]))]
    rw [ih (acc ++ [(p.1, p.2)]) ?_ hl.2]
    · simp
    · intro k hk
      simp only [keys, List.map_append, List.map_cons, List.map_nil,
        List.mem_append, List.mem_singleton]
      push_neg
      refine ⟨hd k (by rw [keys_cons]; exact List.mem_cons_of_mem _ hk), ?_⟩
      intro he
      exact hl.1 (he ▸ hk)

theorem mkMap_eq_self {β : Type} {l : List (Nat × β)}
    (h : (keys l).Nodup) : mkMap l = l := by
  have := foldl_mset_eq_append l [] (by simp) h
  simpa [mkMap] using this

/-- Candidate surviving the threshold filter inside HNSWService.search,
carrying the raw squared L2 distance the library reported for its label. -/
structure Cand where
  label : Nat
  meta : UserMeta
  d2 : ℚ
deriving DecidableEq, Repr

/-- Embeds the result-collection loop of HNSWService.search: walk the library's
neighbor/distance arrays in order, drop pairs with d2 above threshold², and
drop labels without an idMap row (marked-deleted). -/
def collectCands (idMap : List (Nat × UserMeta)) (threshold : ℚ) :
    List (Nat × ℚ) → List Cand
  | [] => []
  | p :: rest =>
    if threshold * threshold < p.2 then collectCands idMap threshold rest
    else
      match mget idMap p.1 with
      | some m => ⟨p.1, m, p.2⟩ :: collectCands idMap threshold rest
      | none => collectCands idMap threshold rest

/-- Comparator of the final results.sort call, on the raw squared distances
(the square root is strictly monotone, so ordering by d2 is ordering by the
reported Euclidean distance). -/
def candLE (a b : Cand) : Prop := a.d2 ≤ b.d2

instance : DecidableRel candLE := fun a b => inferInstanceAs (Decidable (a.d2 ≤ b.d2))

/-- Embeds HNSWService.search: the early empty return for an uninitialized or
empty index, the searchKnn call with min(k, totalVectors) neighbors (the graph
is external, so searchKnn is an oracle argument), filtering, meta lookup, and
the ascending sort by distance. -/
def search (st : HNSWState) (searchKnn : Nat → List (Nat × ℚ))
    (k : Nat) (threshold : ℚ) : List Cand :=
  if st.isInitialized = false ∨ st.totalVectors = 0 then []
  else List.insertionSort candLE
    (collectCands st.idMap threshold (searchKnn (min k st.totalVectors)))

/-- Result object search pushes for a surviving candidate: the spread user meta
plus distance = Math.sqrt(d2) and similarity = Math.round((1 - sqrt d2) * 100). -/
structure SearchHit where
  meta : UserMeta
  distance : ℝ
  similarity : ℤ

/-- Builds the result object of HNSWService.search from a surviving candidate. -/
noncomputable def toHit (c : Cand) : SearchHit :=
  ⟨c.meta, Real.sqrt (c.d2 : ℝ), round ((1 - Real.sqrt (c.d2 : ℝ)) * 100)⟩

/-- Embeds what the caller of HNSWService.search receives. -/
noncomputable def searchHits (st : HNSWState) (searchKnn : Nat → List (Nat × ℚ))
    (k : Nat) (threshold : ℚ) : List SearchHit :=
  (search st searchKnn k threshold).map toHit

theorem mem_collectCands {idMap : List (Nat × UserMeta)} {t : ℚ}
    {knn : List (Nat × ℚ)} {c : Cand} (h : c ∈ collectCands idMap t knn) :
    (c.label, c.d2) ∈ knn ∧ c.d2 ≤ t * t ∧ mget idMap c.label = some c.meta := by
  induction knn with
  | nil => simp [collectCands] at h
  | cons p rest ih =>
    by_cases hf : t * t < p.2
    · simp only [collectCands, hf, if_pos] at h
      rcases ih h with ⟨h1, h2, h3⟩
      exact ⟨List.mem_cons_of_mem _ h1, h2, h3⟩
    · simp only [collectCands, hf, if_neg, not_false_iff] at h
      rcases hm : mget idMap p.1 with _ | m
      · rw [hm] at h
        rcases ih h with ⟨h1, h2, h3⟩
        exact ⟨List.mem_cons_of_mem _ h1, h2, h3⟩
      · rw [hm] at h
        rcases List.mem_cons.mp h with h1 | h1
        · subst h1
          exact ⟨List.mem_cons_self _ _, le_of_not_lt hf, hm⟩
        · rcases ih h1 with ⟨h2, h3, h4⟩
          exact ⟨List.mem_cons_of_mem _ h2, h3, h4⟩

theorem collectCands_complete {idMap : List (Nat × UserMeta)} {t : ℚ}
    {knn : List (Nat × ℚ)} {p : Nat × ℚ} {m : UserMeta}
    (hp : p ∈ knn) (hle : p.2 ≤ t * t) (hm : mget idMap p.1 = some m) :
    (⟨p.1, m, p.2⟩ : Cand) ∈ collectCands idMap t knn := by
  induction knn with
  | nil => simp at hp
  | cons q rest ih =>
    rcases List.mem_cons.mp hp with h1 | h1
    · subst h1
      rw [collectCands, if_neg (not_lt.mpr hle), hm]
      exact List.mem_cons_self _ _
    · by_cases hf : t * t < q.2
      · rw [collectCands, if_pos hf]
        exact ih h1
      · rw [collectCands, if_neg hf]
        rcases hq : mget idMap q.1 with _ | m2
        · exact ih h1
        · exact List.mem_cons_of_mem _ (ih h1)

theorem collectCands_eq_nil {idMap : List (Nat × UserMeta)} {t : ℚ}
    {knn : List (Nat × ℚ)}
    (h : ∀ p ∈ knn, t * t < p.2 ∨ mget idMap p.1 = none) :
    collectCands idMap t knn = [] := by
  induction knn with
  | nil => rfl
  | cons p rest ih =>
    have hr := ih (fun q hq => h q (List.mem_cons_of_mem _ hq))
    rcases h p (List.mem_cons_self _ _) with h1 | h1
    · simp [collectCands, h1, hr]
    · by_cases hf : t * t < p.2
      · simp [collectCands, hf, hr]
      · simp [collectCands, hf, h1, hr]

/-- Row of the users table as consumed by the linear fallback. -/
structure DbUser where
  id : Nat
  ci : String
  name : String
  idCliente : Nat
deriving DecidableEq, Repr

/-- Match object the linear fallback builds for the closest user. -/
structure LinMatch where
  user : DbUser
  distance : ℚ
  similarity : ℤ
deriving DecidableEq, Repr

/-- Embeds Math.round((1 - d) * 100), the similarity formula of the linear
fallback; Math.round(x) is the floor of x + 1/2. -/
def simRound (d : ℚ) : ℤ := round ((1 - d) * 100)

/-- Condition result.distance < bestDistance, with bestDistance starting at
Infinity while no candidate was kept. -/
def beatsBest (d : ℚ) : Option LinMatch → Bool
  | none => true
  | some b => decide (d < b.distance)

/-- Fold of FaceRecognitionService.findBestMatch over the comparison results:
each user comes with the euclideanDistance oracle value for the query (none
standing for a descriptor parse failure, which the code maps to null). -/
def bestFold (threshold : ℚ) (acc : Option LinMatch) :
    List (DbUser × Option ℚ) → Option LinMatch
  | [] => acc
  | (_, none) :: rest => bestFold threshold acc rest
  | (u, some d) :: rest =>
    if d < threshold ∧ beatsBest d acc = true then
      bestFold threshold (some ⟨u, d, simRound d⟩) rest
    else bestFold threshold acc rest

/-- Embeds FaceRecognitionService.findBestMatch. -/
def findBestMatch (threshold : ℚ) (users : List (DbUser × Option ℚ)) :
    Option LinMatch :=
  bestFold threshold none users

/-- Identification outcome attached to a match, from HNSW or linear search. -/
structure MatchInfo where
  id : Nat
  ci : String
  name : String
  idCliente : Nat
  distance : ℚ
  similarity : ℤ
deriving DecidableEq, Repr

/-- Result object recognizeFace returns; backend and detectionBox are constants
of the deterministic pipeline and are omitted. -/
structure RecogResult where
  matched : Option MatchInfo
  confidence : Option ℚ
  processingTime : Nat
deriving DecidableEq, Repr

/-- Metric increments recognizeFace emits. -/
inductive MetricEvent where
  | cacheHit
  | cacheMiss
  | recognition (status : String)
deriving DecidableEq, Repr

instance {ε α : Type} [DecidableEq ε] [DecidableEq α] : DecidableEq (Except ε α) :=
  fun a b =>
    match a, b with
    | .error e, .error e2 =>
      if h : e = e2 then isTrue (by rw [h])
      else isFalse (by intro hc; injection hc; exact h (by assumption))
    | .error _, .ok _ => isFalse (by intro hc; exact Except.noConfusion hc)
    | .ok _, .error _ => isFalse (by intro hc; exact Except.noConfusion hc)
    | .ok v, .ok v2 =>
      if h : v = v2 then isTrue (by rw [h])
      else isFalse (by intro hc; injection hc; exact h (by assumption))

/-- Cache lookup over the string-keyed result cache. -/
def cacheGet (c : List (String × RecogResult)) (k : String) : Option RecogResult :=
  match c with
  | [] => none
  | p :: rest => if p.1 = k then some p.2 else cacheGet rest k

/-- Cache store (set or replace in place). -/
def cacheSet (c : List (String × RecogResult)) (k : String) (v : RecogResult) :
    List (String × RecogResult) :=
  match c with
  | [] => [(k, v)]
  | p :: rest => if p.1 = k then (k, v) :: rest else p :: cacheSet rest k v

@[simp]
theorem cacheGet_cacheSet_self (c : List (String × RecogResult)) (k : String)
    (v : RecogResult) : cacheGet (cacheSet c k v) k = some v := by
  induction c with
  | nil => simp [cacheSet, cacheGet]
  | cons p rest ih =>
    by_cases h : p.1 = k
    · simp [cacheSet, h, cacheGet]
    · simp [cacheSet, h, cacheGet, ih]

/-- Embeds FaceRecognitionService.recognizeFace with its collaborators made
explicit: md5 is the hash inside generateCacheKey, detect the deterministic
detect-then-search pipeline (an Except error is the thrown detection failure),
cache the current cache content, elapsed the wall-clock duration this call
observes. Returns the thrown-or-returned result, the cache left behind and the
metric events recorded, in order. -/
def recognizeFace (md5 : List Nat → String)
    (detect : List Nat → Except String (Option MatchInfo))
    (cache : List (String × RecogResult)) (enableCache : Bool)
    (image : List Nat) (elapsed : Nat) :
    Except String RecogResult × List (String × RecogResult) × List MetricEvent :=
  let cacheKey : Option String :=
    if enableCache then some ("face_recog_" ++ md5 image) else none
  match cacheKey with
  | some key =>
    match cacheGet cache key with
    | some cached =>
      (.ok cached, cache, [.cacheHit, .recognition "cache_hit"])
    | none =>
      match detect image with
      | .error e => (.error e, cache, [.cacheMiss, .recognition "error"])
      | .ok m =>
        let result : RecogResult := ⟨m, m.map (fun mi => mi.distance), elapsed⟩
        let cache2 := if m.isSome then cacheSet cache key result else cache
        (.ok result, cache2,
          [.cacheMiss, .recognition (if m.isSome then "success" else "not_found")])
  | none =>
    match detect image with
    | .error e => (.error e, cache, [.recognition "error"])
    | .ok m =>
      let result : RecogResult := ⟨m, m.map (fun mi => mi.distance), elapsed⟩
      (.ok result, cache, [.recognition (if m.isSome then "success" else "not_found")])

/-- Lifecycle states of a batch job. -/
inductive JobStatus where
  | pending
  | processing
  | completed
  | failed
deriving DecidableEq, Repr

/-- Mutable fields of a batch job that the claims observe. -/
structure JobState where
  status : JobStatus
  totalImages : Nat
  processedImages : Nat
  results : List Nat
  errors : List Nat
deriving DecidableEq, Repr

/-- Embeds one iteration of the per-item processor of _processJobAsync: push
the item onto results or errors and advance processedImages; the item is its
id paired with whether recognizeFace succeeded. -/
def stepItem (j : JobState) (item : Nat × Bool) : JobState :=
  if item.2 then
    { j with results := j.results ++ [item.1],
             processedImages := j.processedImages + 1 }
  else
    { j with errors := j.errors ++ [item.1],
             processedImages := j.processedImages + 1 }

/-- Job record as createRecognitionJob stores it. -/
def createJob (n : Nat) : JobState := ⟨.pending, n, 0, [], []⟩

/-- Embeds _processJobAsync over the determinized per-item outcomes; preFail
models a throw before the worker loop (e.g. User.getActiveUsers failing),
which marks the job failed with nothing processed. -/
def processJob (n : Nat) (outcomes : List (Nat × Bool)) (preFail : Bool) :
    JobState :=
  let j0 := { createJob n with status := JobStatus.processing }
  if preFail then { j0 with status := JobStatus.failed }
  else { outcomes.foldl stepItem j0 with status := JobStatus.completed }

/-- Every job state observable during a run: the processing state before each
item and after the last one. -/
def scanStates (j : JobState) : List (Nat × Bool) → List JobState
  | [] => [j]
  | it :: rest => j :: scanStates (stepItem j it) rest

/-- Embeds the progress field computed by BatchService.getJob:
Math.round(processedImages / totalImages * 100). -/
def progress (j : JobState) : ℤ :=
  round ((j.processedImages : ℚ) / (j.totalImages : ℚ) * 100)

/-- Shared cursor state of _processWithConcurrency. -/
structure PoolState where
  index : Nat
  processed : List Nat
deriving DecidableEq, Repr

/-- One scheduling turn of a worker: the while-guard check and the cursor
post-increment execute atomically on the JavaScript event loop, so a turn
reserves and processes the next item when any remains. -/
def poolStep (n : Nat) (s : PoolState) : PoolState :=
  if s.index < n then ⟨s.index + 1, s.processed ++ [s.index]⟩ else s

/-- Runs the worker pool of _processWithConcurrency under an arbitrary
interleaving: sched lists which of the Math.min(concurrency, n) workers takes
each turn; every turn performs poolStep because the workers share the cursor
and item array. -/
def poolRun (n : Nat) (sched : List Nat) : PoolState :=
  sched.foldl (fun s _ => poolStep n s) ⟨0, []⟩

/-- Outcomes (saved flag, thrown error) of a sequence of addUser calls. -/
def addSeq (st : HNSWState) : List (Nat × UserMeta) → List (Bool × Option HErr)
  | [] => []
  | a :: rest =>
    ((addUser st a.1 a.2).saved, (addUser st a.1 a.2).err) ::
      addSeq (addUser st a.1 a.2).st rest

/-- State each addUser call of the sequence starts from. -/
def addTrace (st : HNSWState) : List (Nat × UserMeta) → List HNSWState
  | [] => []
  | a :: rest => st :: addTrace (addUser st a.1 a.2).st rest

/-- Digit class of the d regex escape. -/
def isIdChar (c : Char) : Bool := c.isDigit

/-- Character class [A-Z0-9] of the :ci replacement. -/
def isCiChar (c : Char) : Bool :=
  (decide ('A' ≤ c) && decide (c ≤ 'Z')) || c.isDigit

/-- Character class [a-f0-9-] of the :uuid replacement. -/
def isUuidChar (c : Char) : Bool :=
  (decide ('a' ≤ c) && decide (c ≤ 'f')) || c.isDigit ||
    decide (c = '-')

/-- Replacement text of the :id replace. -/
def idRepl : List Char := [':', 'i', 'd']

/-- Replacement text of the :ci replace. -/
def ciRepl : List Char := [':', 'c', 'i']

/-- Replacement text of the :uuid replace. -/
def uuidRepl : List Char := [':', 'u', 'u', 'i', 'd']

/-- One global JavaScript regex replacement of the shape slash-then-class-run:
at each slash followed by a class run of length at least minRun, the slash and
consume(run) characters of the run form the match, the slash plus the
replacement text are emitted, and scanning resumes after the match; everything
else is copied. The three replaces of MetricsService._normalizeRoute are
instances. -/
def regexPass (cls : Char → Bool) (minRun : Nat) (consume : Nat → Nat)
    (repl : List Char) : List Char → List Char
  | [] => []
  | c :: rest =>
    if c = '/' ∧ minRun ≤ (rest.takeWhile cls).length then
      '/' :: repl ++ regexPass cls minRun consume repl
        (rest.drop (consume (rest.takeWhile cls).length))
    else c :: regexPass cls minRun consume repl rest
termination_by l => l.length
decreasing_by
  · simp only [List.length_drop, List.length_cons]
    omega
  · simp only [List.length_cons]
    omega

/-- First replace of _normalizeRoute: a slash followed by a greedy digit run of
length at least one becomes "/:id". -/
def idPass : List Char → List Char := regexPass isIdChar 1 (fun k => k) idRepl

/-- Second replace of _normalizeRoute: a slash followed by an uppercase
alphanumeric run of length at least 6 becomes "/:ci"; the greedy bounded
quantifier consumes min(run, 20) characters. -/
def ciPass : List Char → List Char :=
  regexPass isCiChar 6 (fun k => min k 20) ciRepl

/-- Third replace of _normalizeRoute: a slash followed by at least 36
lowercase-hex-or-dash characters becomes "/:uuid"; exactly 36 are consumed. -/
def uuidPass : List Char → List Char :=
  regexPass isUuidChar 36 (fun _ => 36) uuidRepl

/-- Embeds MetricsService._normalizeRoute: the three chained global regex
replacements over the request path. -/
def normalizeRoute (path : List Char) : List Char :=
  uuidPass (ciPass (idPass path))

/-- Joins slash-free segments into a path: each segment prefixed by a slash. -/
def joinSegs : List (List Char) → List Char
  | [] => []
  | s :: rest => '/' :: (s ++ joinSegs rest)

/-- Per-segment description of the three replacements: collapse a leading digit
run to ":id"; otherwise replace the first min(run, 20) characters of a leading
[A-Z0-9] run of length at least 6 by ":ci"; otherwise, when the first 36
characters are all lowercase-hex-or-dash, replace those 36 by ":uuid";
otherwise leave the segment unchanged. -/
def normSeg (s : List Char) : List Char :=
  if (s.takeWhile isIdChar).length ≠ 0 then
    ':' :: 'i' :: 'd' :: s.drop (s.takeWhile isIdChar).length
  else if 6 ≤ (s.takeWhile isCiChar).length then
    ':' :: 'c' :: 'i' :: s.drop (min (s.takeWhile isCiChar).length 20)
  else if 36 ≤ (s.takeWhile isUuidChar).length then
    ':' :: 'u' :: 'u' :: 'i' :: 'd' :: s.drop 36
  else s

theorem stepItem_processed (j : JobState) (it : Nat × Bool) :
    (stepItem j it).processedImages = j.processedImages + 1 := by
  by_cases h : it.2 <;> simp [stepItem, h]

theorem stepItem_counts (j : JobState) (it : Nat × Bool) :
    (stepItem j it).results.length + (stepItem j it).errors.length =
      j.results.length + j.errors.length + 1 := by
  by_cases h : it.2 <;> simp [stepItem, h] <;> omega

theorem stepItem_total (j : JobState) (it : Nat × Bool) :
    (stepItem j it).totalImages = j.totalImages := by
  by_cases h : it.2 <;> simp [stepItem, h]

theorem stepItem_status (j : JobState) (it : Nat × Bool) :
    (stepItem j it).status = j.status := by
  by_cases h : it.2 <;> simp [stepItem, h]

theorem foldl_stepItem_fields (outcomes : List (Nat × Bool)) :
    ∀ j : JobState,
      (outcomes.foldl stepItem j).processedImages =
          j.processedImages + outcomes.length ∧
      (outcomes.foldl stepItem j).results.length +
          (outcomes.foldl stepItem j).errors.length =
          j.results.length + j.errors.length + outcomes.length ∧
      (outcomes.foldl stepItem j).totalImages = j.totalImages := by
  induction outcomes with
  | nil => intro j; simp
  | cons it rest ih =>
    intro j
    rcases ih (stepItem j it) with ⟨h1, h2, h3⟩
    refine ⟨?_, ?_, ?_⟩
    · simp only [List.foldl_cons, h1, stepItem_processed, List.length_cons]
      omega
    · simp only [List.foldl_cons, h2, stepItem_counts, List.length_cons]
      omega
    · simp only [List.foldl_cons, h3, stepItem_total]

theorem scanStates_bound (outcomes : List (Nat × Bool)) :
    ∀ (j : JobState) (B T : Nat),
      j.processedImages + outcomes.length ≤ B → j.totalImages = T →
      ∀ s ∈ scanStates j outcomes, s.processedImages ≤ B ∧ s.totalImages = T := by
  induction outcomes with
  | nil =>
    intro j B T hB hT s hs
    simp only [scanStates, List.mem_singleton] at hs
    subst hs
    exact ⟨by omega, hT⟩
  | cons it rest ih =>
    intro j B T hB hT s hs
    simp only [scanStates, List.mem_cons] at hs
    rcases hs with hs | hs
    · subst hs
      simp only [List.length_cons] at hB
      exact ⟨by omega, hT⟩
    · refine ih (stepItem j it) B T ?_ ?_ s hs
      · rw [stepItem_processed]
        simp only [List.length_cons] at hB
        omega
      · rw [stepItem_total, hT]

theorem floor_le_hundred {x : ℚ} (h : x ≤ 201/2) : ⌊x⌋ ≤ 100 := by
  have h100 : ⌊(201/2 : ℚ)⌋ = 100 := by
    rw [Int.floor_eq_iff]
    constructor <;> norm_num
  calc ⌊x⌋ ≤ ⌊(201/2 : ℚ)⌋ := Int.floor_le_floor h
    _ = 100 := h100

theorem progress_bounds (j : JobState) (h1 : 1 ≤ j.totalImages)
    (h2 : j.processedImages ≤ j.totalImages) :
    0 ≤ progress j ∧ progress j ≤ 100 := by
  have ht : (0 : ℚ) < (j.totalImages : ℚ) := by exact_mod_cast h1
  have hle : (j.processedImages : ℚ) ≤ (j.totalImages : ℚ) := by exact_mod_cast h2
  have hx0 : (0 : ℚ) ≤ (j.processedImages : ℚ) / (j.totalImages : ℚ) * 100 := by
    positivity
  have hx1 : (j.processedImages : ℚ) / (j.totalImages : ℚ) * 100 ≤ 100 := by
    rw [div_mul_eq_mul_div, div_le_iff₀ ht]
    nlinarith
  constructor
  · unfold progress
    rw [round_eq]
    apply Int.floor_nonneg.mpr
    linarith
  · unfold progress
    rw [round_eq]
    exact floor_le_hundred (by linarith)

/-- Claim C8: once a batch job reaches a terminal status (completed or failed),
processedImages equals the number of result entries plus the number of error
entries, and the progress computed by getJob stays within 0..100 in every job
state of the run (the pending-shaped initial state, every intermediate
processing state, and the terminal state). -/
theorem C8_job_invariants (n : Nat) (outcomes : List (Nat × Bool))
    (preFail : Bool) (hn : 1 ≤ n) (hlen : outcomes.length = n) :
    ((processJob n outcomes preFail).status = JobStatus.completed ∨
      (processJob n outcomes preFail).status = JobStatus.failed) ∧
    ((processJob n outcomes preFail).processedImages =
      (processJob n outcomes preFail).results.length +
        (processJob n outcomes preFail).errors.length) ∧
    (∀ s ∈ scanStates { createJob n with status := JobStatus.processing } outcomes,
      0 ≤ progress s ∧ progress s ≤ 100) ∧
    0 ≤ progress (processJob n outcomes preFail) ∧
    progress (processJob n outcomes preFail) ≤ 100 := by
  have hscan : ∀ s ∈ scanStates { createJob n with status := JobStatus.processing }
      outcomes, 0 ≤ progress s ∧ progress s ≤ 100 := by
    intro s hs
    have hb := scanStates_bound outcomes
      { createJob n with status := JobStatus.processing } n n
      (by simp [createJob]; omega) (by simp [createJob]) s hs
    exact progress_bounds s (by rw [hb.2]; exact hn) (hb.2 ▸ hb.1)
  by_cases hf : preFail
  · subst hf
    refine ⟨Or.inr rfl, rfl, hscan, ?_⟩
    exact progress_bounds _ (by simp [processJob, createJob]; exact hn)
      (by simp [processJob, createJob])
  · have hf2 : preFail = false := by simpa using hf
    subst hf2
    rcases foldl_stepItem_fields outcomes
      { createJob n with status := JobStatus.processing } with ⟨h1, h2, h3⟩
    have hpj : processJob n outcomes false =
        { outcomes.foldl stepItem { createJob n with status := JobStatus.processing }
            with status := JobStatus.completed } := rfl
    have hT : (processJob n outcomes false).totalImages = n := by
      rw [hpj]
      show (outcomes.foldl stepItem _).totalImages = n
      rw [h3]
      simp [createJob]
    have hP : (processJob n outcomes false).processedImages = outcomes.length := by
      rw [hpj]
      show (outcomes.foldl stepItem _).processedImages = outcomes.length
      rw [h1]
      simp [createJob]
    refine ⟨Or.inl rfl, ?_, hscan, ?_⟩
    · rw [hP, hpj]
      show outcomes.length = (outcomes.foldl stepItem _).results.length +
        (outcomes.foldl stepItem _).errors.length
      rw [h2]
      simp [createJob]
    · exact progress_bounds _ (by rw [hT]; exact hn)
        (by rw [hP, hT]; exact le_of_eq hlen)

/-- Witness for C8 at a concrete two-item job with one success and one error. -/
theorem C8_job_invariants_witness :
    1 ≤ 2 ∧ ([(0, true), (1, false)] : List (Nat × Bool)).length = 2 ∧
    (((processJob 2 [(0, true), (1, false)] false).status = JobStatus.completed ∨
      (processJob 2 [(0, true), (1, false)] false).status = JobStatus.failed) ∧
    ((processJob 2 [(0, true), (1, false)] false).processedImages =
      (processJob 2 [(0, true), (1, false)] false).results.length +
        (processJob 2 [(0, true), (1, false)] false).errors.length) ∧
    (∀ s ∈ scanStates { createJob 2 with status := JobStatus.processing }
        [(0, true), (1, false)], 0 ≤ progress s ∧ progress s ≤ 100) ∧
    0 ≤ progress (processJob 2 [(0, true), (1, false)] false) ∧
    progress (processJob 2 [(0, true), (1, false)] false) ≤ 100) :=
  ⟨by decide, rfl, C8_job_invariants 2 [(0, true), (1, false)] false (by decide) rfl⟩

theorem poolFold_eq (n : Nat) (sched : List Nat) :
    ∀ (i : Nat) (p : List Nat), i ≤ n →
      sched.foldl (fun s _ => poolStep n s) ⟨i, p⟩ =
        ⟨min (i + sched.length) n, p ++ List.range' i (min (i + sched.length) n - i)⟩ := by
  induction sched with
  | nil =>
    intro i p hi
    simp only [List.foldl_nil, List.length_nil, Nat.add_zero]
    rw [Nat.min_eq_left hi]
    simp
  | cons w rest ih =>
    intro i p hi
    simp only [List.foldl_cons, List.length_cons]
    by_cases h : i < n
    · rw [show poolStep n ⟨i, p⟩ = ⟨i + 1, p ++ [i]⟩ from by simp [poolStep, h]]
      rw [ih (i + 1) (p ++ [i]) h]
      have harith : min (i + (rest.length + 1)) n - i =
          (min (i + 1 + rest.length) n - (i + 1)) + 1 := by omega
      have hmin : min (i + 1 + rest.length) n = min (i + (rest.length + 1)) n := by
        omega
      simp only [PoolState.mk.injEq]
      refine ⟨hmin, ?_⟩
      rw [List.append_assoc, harith, List.range'_succ]
      rw [hmin]
      simp
    · rw [show poolStep n ⟨i, p⟩ = ⟨i, p⟩ from by simp [poolStep, h]]
      rw [ih i p hi]
      have e1 : min (i + rest.length) n = n := by omega
      have e2 : min (i + (rest.length + 1)) n = n := by omega
      rw [e1, e2]

/-- Claim C10: the worker pool of _processWithConcurrency, run under any
interleaving that lets it drain the cursor, invokes the per-item processor
exactly once for each of the n items: the multiset of processed indices is
exactly 0..n-1, so nothing is skipped and nothing is processed twice. -/
theorem C10_pool_each_item_once (n c : Nat) (sched : List Nat)
    (_hc : 1 ≤ c) (hn : n ≤ sched.length)
    (_hw : ∀ w ∈ sched, w < min c n) :
    (poolRun n sched).processed = List.range n ∧
    (∀ i, i < n → (poolRun n sched).processed.count i = 1) ∧
    (∀ i ∈ (poolRun n sched).processed, i < n) := by
  have hproc : (poolRun n sched).processed = List.range n := by
    unfold poolRun
    rw [poolFold_eq n sched 0 [] (Nat.zero_le n)]
    show [] ++ List.range' 0 (min (0 + sched.length) n - 0) = List.range n
    have e2 : min (0 + sched.length) n - 0 = n := by omega
    rw [e2, List.nil_append, List.range_eq_range']
  refine ⟨hproc, ?_, ?_⟩
  · intro i hilt
    rw [hproc]
    exact List.count_eq_one_of_mem (List.nodup_range n) (List.mem_range.mpr hilt)
  · intro i hmem
    rw [hproc] at hmem
    exact List.mem_range.mp hmem

/-- Witness for C10: three items drained by two workers over five turns. -/
theorem C10_pool_each_item_once_witness :
    1 ≤ 2 ∧ 3 ≤ ([0, 1, 0, 1, 0] : List Nat).length ∧
    (∀ w ∈ ([0, 1, 0, 1, 0] : List Nat), w < min 2 3) ∧
    ((poolRun 3 [0, 1, 0, 1, 0]).processed = List.range 3 ∧
    (∀ i, i < 3 → (poolRun 3 [0, 1, 0, 1, 0]).processed.count i = 1) ∧
    (∀ i ∈ (poolRun 3 [0, 1, 0, 1, 0]).processed, i < 3)) :=
  ⟨by decide, by decide, by decide,
    C10_pool_each_item_once 3 2 [0, 1, 0, 1, 0] (by decide) (by decide) (by decide)⟩

/-- Claim C5: when the index is initialized and totalVectors has reached
maxElements (1,100,000), addUser of a userId with no existing label fails with
CapacityExceeded. The hypothesis hcount records that the physical graph holds
at least totalVectors points, which every reachable state satisfies since
updates add masked points and removes only mask them. -/
theorem C5_addUser_capacity (st : HNSWState) (u : Nat) (m : UserMeta)
    (hinit : st.isInitialized = true)
    (hfresh : mget st.reverseIdMap u = none)
    (hfull : st.totalVectors = MAX_ELEMENTS)
    (hcount : st.totalVectors ≤ st.elementCount) :
    (addUser st u m).err = some HErr.capacityExceeded := by
  have hfullc : graphFull st.elementCount = true := by
    unfold graphFull
    rw [decide_eq_true_iff]
    rw [hfull] at hcount
    exact hcount
  simp [addUser, hinit, hfresh, hfullc]

/-- Concrete full state for the C5 witness: an index whose vector counters sit
at capacity. -/
def fullState : HNSWState :=
  { idMap := [], reverseIdMap := [], nextLabel := 1100000, isInitialized := true,
    totalVectors := 1100000, elementCount := 1100000 }

/-- Witness for C5 at the concrete full state. -/
theorem C5_addUser_capacity_witness :
    fullState.isInitialized = true ∧
    mget fullState.reverseIdMap 7 = none ∧
    fullState.totalVectors = MAX_ELEMENTS ∧
    fullState.totalVectors ≤ fullState.elementCount ∧
    (addUser fullState 7 ⟨7, "x", "y", 1⟩).err = some HErr.capacityExceeded :=
  ⟨rfl, rfl, rfl, le_refl _,
    C5_addUser_capacity fullState 7 ⟨7, "x", "y", 1⟩ rfl rfl rfl (le_refl _)⟩

/-- Claim C2: saving the index and re-initializing from the written files
reproduces the same label-to-meta map, the same userId-to-label map, the same
nextLabel and the same size(). The hypotheses record well-formedness every
reachable state enjoys: Map keys are unique and totalVectors counts the live
idMap entries. -/
theorem C2_save_load_roundtrip (st : HNSWState)
    (h1 : (keys st.idMap).Nodup)
    (h2 : (keys st.reverseIdMap).Nodup)
    (h3 : st.totalVectors = st.idMap.length) :
    (loadIndex (saveIndex st)).idMap = st.idMap ∧
    (loadIndex (saveIndex st)).reverseIdMap = st.reverseIdMap ∧
    (loadIndex (saveIndex st)).nextLabel = st.nextLabel ∧
    size (loadIndex (saveIndex st)) = size st := by
  have hm1 : mkMap st.idMap = st.idMap := mkMap_eq_self h1
  have hm2 : mkMap st.reverseIdMap = st.reverseIdMap := mkMap_eq_self h2
  refine ⟨?_, ?_, rfl, ?_⟩
  · show mkMap st.idMap = st.idMap
    exact hm1
  · show mkMap st.reverseIdMap = st.reverseIdMap
    exact hm2
  · show (mkMap st.idMap).length = st.totalVectors
    rw [hm1, h3]

/-- Concrete one-entry state for the C2 witness. -/
def stRound : HNSWState :=
  { idMap := [(0, ⟨5, "a", "b", 3⟩)], reverseIdMap := [(5, 0)], nextLabel := 1,
    isInitialized := true, totalVectors := 1, elementCount := 1 }

/-- Witness for C2 at the concrete one-entry state. -/
theorem C2_save_load_roundtrip_witness :
    (keys stRound.idMap).Nodup ∧
    (keys stRound.reverseIdMap).Nodup ∧
    stRound.totalVectors = stRound.idMap.length ∧
    ((loadIndex (saveIndex stRound)).idMap = stRound.idMap ∧
    (loadIndex (saveIndex stRound)).reverseIdMap = stRound.reverseIdMap ∧
    (loadIndex (saveIndex stRound)).nextLabel = stRound.nextLabel ∧
    size (loadIndex (saveIndex stRound)) = size stRound) :=
  ⟨by decide, by decide, rfl,
    C2_save_load_roundtrip stRound (by decide) (by decide) rfl⟩

/-- Constant hash oracle for concrete cache examples. -/
def md5c : List Nat → String := fun _ => "h"

/-- Pipeline oracle finding no match, for the C4 counterexample. -/
def detectNone : List Nat → Except String (Option MatchInfo) := fun _ => Except.ok none

theorem recognizeFace_hit (md5 : List Nat → String)
    (detect : List Nat → Except String (Option MatchInfo))
    (cache : List (String × RecogResult)) (image : List Nat) (elapsed : Nat)
    (r : RecogResult)
    (hg : cacheGet cache ("face_recog_" ++ md5 image) = some r) :
    recognizeFace md5 detect cache true image elapsed =
      (Except.ok r, cache,
        [MetricEvent.cacheHit, MetricEvent.recognition "cache_hit"]) := by
  unfold recognizeFace
  simp [hg]

theorem recognizeFace_miss_err (md5 : List Nat → String)
    (detect : List Nat → Except String (Option MatchInfo))
    (cache : List (String × RecogResult)) (image : List Nat) (elapsed : Nat)
    (e : String)
    (hg : cacheGet cache ("face_recog_" ++ md5 image) = none)
    (hd : detect image = Except.error e) :
    recognizeFace md5 detect cache true image elapsed =
      (Except.error e, cache,
        [MetricEvent.cacheMiss, MetricEvent.recognition "error"]) := by
  unfold recognizeFace
  simp [hg, hd]

theorem recognizeFace_miss_ok (md5 : List Nat → String)
    (detect : List Nat → Except String (Option MatchInfo))
    (cache : List (String × RecogResult)) (image : List Nat) (elapsed : Nat)
    (m : Option MatchInfo)
    (hg : cacheGet cache ("face_recog_" ++ md5 image) = none)
    (hd : detect image = Except.ok m) :
    recognizeFace md5 detect cache true image elapsed =
      (Except.ok ⟨m, m.map (fun mi => mi.distance), elapsed⟩,
        (if m.isSome then
          cacheSet cache ("face_recog_" ++ md5 image)
            ⟨m, m.map (fun mi => mi.distance), elapsed⟩
        else cache),
        [MetricEvent.cacheMiss,
          MetricEvent.recognition (if m.isSome then "success" else "not_found")]) := by
  unfold recognizeFace
  simp [hg, hd]

/-- Claim C4 fails as stated: with caching enabled and a query recognized with
no match, the result is never cached (the code caches only when a match
exists), so the second identical call recomputes — returning a result that
differs in processingTime — and records a cache miss, not a cache hit. -/
theorem C4_counterexample :
    (recognizeFace md5c detectNone [] true [1] 5).1 ≠
      (recognizeFace md5c detectNone
        (recognizeFace md5c detectNone [] true [1] 5).2.1 true [1] 7).1 ∧
    MetricEvent.cacheHit ∉
      (recognizeFace md5c detectNone
        (recognizeFace md5c detectNone [] true [1] 5).2.1 true [1] 7).2.2 ∧
    MetricEvent.cacheMiss ∈
      (recognizeFace md5c detectNone
        (recognizeFace md5c detectNone [] true [1] 5).2.1 true [1] 7).2.2 := by
  decide

/-- Claim C4 amended: with caching enabled, if the first identify call returns
a result carrying a non-null match, the second identical call returns exactly
that result from the cache and records a cache-hit increment. -/
theorem C4_cache_hit_on_match (md5 : List Nat → String)
    (detect : List Nat → Except String (Option MatchInfo))
    (cache : List (String × RecogResult)) (image : List Nat)
    (t1 t2 : Nat) (r : RecogResult)
    (h1 : (recognizeFace md5 detect cache true image t1).1 = Except.ok r)
    (hm : r.matched.isSome = true) :
    (recognizeFace md5 detect (recognizeFace md5 detect cache true image t1).2.1
        true image t2).1 = Except.ok r ∧
    MetricEvent.cacheHit ∈
      (recognizeFace md5 detect (recognizeFace md5 detect cache true image t1).2.1
        true image t2).2.2 := by
  rcases hg : cacheGet cache ("face_recog_" ++ md5 image) with _ | cached
  · rcases hd : detect image with e | m
    · rw [recognizeFace_miss_err md5 detect cache image t1 e hg hd] at h1
      simp at h1
    · rw [recognizeFace_miss_ok md5 detect cache image t1 m hg hd] at h1 ⊢
      simp only [Except.ok.injEq] at h1
      subst h1
      simp only at hm
      rw [if_pos hm]
      have hg2 : cacheGet
          (cacheSet cache ("face_recog_" ++ md5 image)
            ⟨m, m.map (fun mi => mi.distance), t1⟩)
          ("face_recog_" ++ md5 image) =
          some ⟨m, m.map (fun mi => mi.distance), t1⟩ :=
        cacheGet_cacheSet_self _ _ _
      rw [recognizeFace_hit md5 detect _ image t2 _ hg2]
      exact ⟨rfl, by simp⟩
  · rw [recognizeFace_hit md5 detect cache image t1 cached hg] at h1 ⊢
    simp only [Except.ok.injEq] at h1
    subst h1
    rw [recognizeFace_hit md5 detect cache image t2 cached hg]
    exact ⟨rfl, by simp⟩

/-- Concrete match returned by the C4 witness pipeline. -/
def matchA : MatchInfo := ⟨1, "A1", "Ada", 2, 0, 100⟩

/-- Pipeline oracle that always finds matchA. -/
def detectHit : List Nat → Except String (Option MatchInfo) :=
  fun _ => Except.ok (some matchA)

/-- Result the first witness call returns. -/
def resultA : RecogResult := ⟨some matchA, some 0, 5⟩

/-- Witness for the amended C4 with a concrete matching pipeline. -/
theorem C4_cache_hit_on_match_witness :
    (recognizeFace md5c detectHit [] true [1] 5).1 = Except.ok resultA ∧
    resultA.matched.isSome = true ∧
    ((recognizeFace md5c detectHit (recognizeFace md5c detectHit [] true [1] 5).2.1
        true [1] 7).1 = Except.ok resultA ∧
    MetricEvent.cacheHit ∈
      (recognizeFace md5c detectHit (recognizeFace md5c detectHit [] true [1] 5).2.1
        true [1] 7).2.2) :=
  ⟨by decide, rfl,
    C4_cache_hit_on_match md5c detectHit [] [1] 5 7 resultA (by decide) rfl⟩

/-- Metadata record used by concrete examples. -/
def meta0 : UserMeta := ⟨0, "c", "n", 0⟩

theorem updateUserGo_saved (st : HNSWState) (u : Nat) (m : UserMeta) :
    (updateUserGo st u m).saved = false := by
  unfold updateUserGo
  rcases mget st.reverseIdMap u with _ | label
  · rfl
  · dsimp only
    by_cases h : graphFull st.elementCount = true
    · rw [if_pos h]
    · rw [if_neg h]

theorem addUser_saved_iff (st : HNSWState) (u : Nat) (m : UserMeta)
    (hsucc : (addUser st u m).err = none) :
    ((addUser st u m).saved = true ↔
      (mget st.reverseIdMap u = none ∧ (st.totalVectors + 1) % 100 = 0)) := by
  unfold addUser at hsucc ⊢
  by_cases hinit : st.isInitialized = false
  · rw [if_pos hinit] at hsucc
    simp at hsucc
  · rw [if_neg hinit] at hsucc ⊢
    rcases hg : mget st.reverseIdMap u with _ | l
    · rw [hg] at hsucc
      simp only [Option.isSome_none, Bool.false_eq_true, if_false] at hsucc ⊢
      by_cases hfull : graphFull st.elementCount = true
      · rw [if_pos hfull] at hsucc
        simp at hsucc
      · rw [if_neg hfull] at hsucc ⊢
        by_cases hmod : (st.totalVectors + 1) % 100 = 0
        · rw [if_pos hmod]
          simp [hmod]
        · rw [if_neg hmod]
          simp [hmod]
    · have hc : (some l).isSome = true := rfl
      rw [if_pos hc]
      rw [updateUserGo_saved]
      simp

theorem addSeq_getD (st : HNSWState) (ops : List (Nat × UserMeta)) (i : Nat)
    (hi : i < ops.length) :
    (addSeq st ops).getD i (false, none) =
      ((addUser ((addTrace st ops).getD i initializedEmpty)
          ((ops.getD i (0, meta0)).1) ((ops.getD i (0, meta0)).2)).saved,
       (addUser ((addTrace st ops).getD i initializedEmpty)
          ((ops.getD i (0, meta0)).1) ((ops.getD i (0, meta0)).2)).err) := by
  induction ops generalizing st i with
  | nil => simp at hi
  | cons a rest ih =>
    cases i with
    | zero => simp [addSeq, addTrace]
    | succ j =>
      simp only [addSeq, addTrace, List.getD_cons_succ]
      exact ih (addUser st a.1 a.2).st j (by simpa using hi)

/-- Initialized index already holding 99 vectors, as obtained by loading a
populated index from disk (or by 99 prior adds). -/
def st99 : HNSWState :=
  { idMap := (List.range 99).map (fun l => (l, { meta0 with userId := l })),
    reverseIdMap := (List.range 99).map (fun u => (u, u)),
    nextLabel := 99, isInitialized := true, totalVectors := 99,
    elementCount := 99 }

/-- Claim C6 fails as stated: on this initialized index the very first
successful addUser of the sequence triggers a persist, because totalVectors
reaches 100 — the trigger counts totalVectors, not adds of the sequence. -/
theorem C6_counterexample :
    addSeq st99 [(1000, meta0)] = [(true, none)] := by
  decide

/-- Claim C6 amended: within any sequence of addUser calls, a successful call
triggers a persist exactly when it inserts a fresh userId and the resulting
totalVectors is a multiple of 100; addUser calls for already-mapped userIds
run the update path and never persist. (The persist itself is awaited inside
addUser; its non-blocking nature is a scheduling property outside this model.) -/
theorem C6_periodic_save (st : HNSWState) (ops : List (Nat × UserMeta))
    (i : Nat) (hi : i < ops.length)
    (hsucc : ((addSeq st ops).getD i (false, none)).2 = none) :
    (((addSeq st ops).getD i (false, none)).1 = true ↔
      (mget ((addTrace st ops).getD i initializedEmpty).reverseIdMap
          ((ops.getD i (0, meta0)).1) = none ∧
        (((addTrace st ops).getD i initializedEmpty).totalVectors + 1) % 100 = 0)) := by
  rw [addSeq_getD st ops i hi] at hsucc ⊢
  exact addUser_saved_iff _ _ _ hsucc

/-- Witness for the amended C6: the hundredth vector triggers the save. -/
theorem C6_periodic_save_witness :
    0 < ([(1000, meta0)] : List (Nat × UserMeta)).length ∧
    ((addSeq st99 [(1000, meta0)]).getD 0 (false, none)).2 = none ∧
    (((addSeq st99 [(1000, meta0)]).getD 0 (false, none)).1 = true ↔
      (mget ((addTrace st99 [(1000, meta0)]).getD 0 initializedEmpty).reverseIdMap
          ((([(1000, meta0)] : List (Nat × UserMeta)).getD 0 (0, meta0)).1) = none ∧
        (((addTrace st99 [(1000, meta0)]).getD 0 initializedEmpty).totalVectors + 1)
          % 100 = 0)) :=
  ⟨by decide, by decide,
    C6_periodic_save st99 [(1000, meta0)] 0 (by decide) (by decide)⟩

instance : IsTotal Cand candLE := ⟨fun a b => le_total a.d2 b.d2⟩

instance : IsTrans Cand candLE := ⟨fun _ _ _ hab hbc => le_trans hab hbc⟩

theorem search_eq (st : HNSWState) (searchKnn : Nat → List (Nat × ℚ)) (k : Nat)
    (t : ℚ) (hinit : st.isInitialized = true) (hne : 0 < st.totalVectors) :
    search st searchKnn k t =
      List.insertionSort candLE
        (collectCands st.idMap t (searchKnn (min k st.totalVectors))) := by
  have hcond : ¬(st.isInitialized = false ∨ st.totalVectors = 0) := by
    rintro (h | h)
    · rw [hinit] at h
      exact Bool.noConfusion h
    · omega
  unfold search
  rw [if_neg hcond]

/-- Claim C1: on an initialized, non-empty index, search returns only
candidates whose library-reported squared L2 distance d2 lies within
threshold² and whose label has a labelToMeta row, and it returns every such
surviving candidate: the output is exactly the survivors (as a permutation of
their result objects), each reporting distance = sqrt d2 and
similarity = round((1 - sqrt d2) × 100); labels without a labelToMeta row
(marked-deleted) are silently skipped; the list comes back sorted ascending by
distance, and is empty when nothing survives. -/
theorem C1_search_spec (st : HNSWState) (searchKnn : Nat → List (Nat × ℚ))
    (k : Nat) (t : ℚ)
    (hinit : st.isInitialized = true) (hne : 0 < st.totalVectors) :
    (∀ h ∈ searchHits st searchKnn k t,
      ∃ p ∈ searchKnn (min k st.totalVectors),
        p.2 ≤ t * t ∧ mget st.idMap p.1 = some h.meta ∧
        h.distance = Real.sqrt (p.2 : ℝ) ∧
        h.similarity = round ((1 - Real.sqrt (p.2 : ℝ)) * 100)) ∧
    (∀ p ∈ searchKnn (min k st.totalVectors), p.2 ≤ t * t →
      ∀ m, mget st.idMap p.1 = some m →
        ∃ h ∈ searchHits st searchKnn k t,
          h.meta = m ∧ h.distance = Real.sqrt (p.2 : ℝ) ∧
          h.similarity = round ((1 - Real.sqrt (p.2 : ℝ)) * 100)) ∧
    List.Perm (searchHits st searchKnn k t)
      ((collectCands st.idMap t (searchKnn (min k st.totalVectors))).map toHit) ∧
    List.Sorted (fun a b : SearchHit => a.distance ≤ b.distance)
      (searchHits st searchKnn k t) ∧
    ((∀ p ∈ searchKnn (min k st.totalVectors),
        t * t < p.2 ∨ mget st.idMap p.1 = none) →
      searchHits st searchKnn k t = []) := by
  have hs := search_eq st searchKnn k t hinit hne
  refine ⟨?_, ?_, ?_, ?_, ?_⟩
  · intro h hh
    unfold searchHits at hh
    rw [hs] at hh
    rcases List.mem_map.mp hh with ⟨c, hc, hch⟩
    have hc2 : c ∈ collectCands st.idMap t (searchKnn (min k st.totalVectors)) :=
      (List.perm_insertionSort candLE _).mem_iff.mp hc
    rcases mem_collectCands hc2 with ⟨h1, h2, h3⟩
    refine ⟨(c.label, c.d2), h1, h2, ?_, ?_, ?_⟩
    · rw [← hch]
      exact h3
    · rw [← hch]
      rfl
    · rw [← hch]
      rfl
  · intro p hp hle m hm
    have hc : (⟨p.1, m, p.2⟩ : Cand) ∈
        collectCands st.idMap t (searchKnn (min k st.totalVectors)) :=
      collectCands_complete hp hle hm
    have hc2 : (⟨p.1, m, p.2⟩ : Cand) ∈ search st searchKnn k t := by
      rw [hs]
      exact (List.perm_insertionSort candLE _).mem_iff.mpr hc
    refine ⟨toHit ⟨p.1, m, p.2⟩, ?_, rfl, rfl, rfl⟩
    unfold searchHits
    exact List.mem_map.mpr ⟨_, hc2, rfl⟩
  · unfold searchHits
    rw [hs]
    exact (List.perm_insertionSort candLE _).map toHit
  · unfold searchHits
    rw [hs]
    have hsorted : List.Sorted candLE (List.insertionSort candLE
        (collectCands st.idMap t (searchKnn (min k st.totalVectors)))) :=
      List.sorted_insertionSort candLE _
    refine List.Pairwise.map toHit ?_ hsorted
    intro a b hab
    show Real.sqrt (a.d2 : ℝ) ≤ Real.sqrt (b.d2 : ℝ)
    exact Real.sqrt_le_sqrt (by exact_mod_cast hab)
  · intro hall
    unfold searchHits
    rw [hs, collectCands_eq_nil hall]
    rfl

/-- Metadata of the single user in the C1 witness index. -/
def metaW : UserMeta := ⟨3, "w", "n", 2⟩

/-- One-vector initialized index for the C1 witness. -/
def stW : HNSWState := ⟨[(0, metaW)], [(3, 0)], 1, true, 1, 1⟩

/-- Library oracle for the C1 witness: label 0 at squared distance 1. -/
def knnW : Nat → List (Nat × ℚ) := fun _ => [(0, 1)]

/-- Witness for C1 on the one-vector index with threshold 2. -/
theorem C1_search_spec_witness :
    stW.isInitialized = true ∧ 0 < stW.totalVectors ∧
    ((∀ h ∈ searchHits stW knnW 5 2,
      ∃ p ∈ knnW (min 5 stW.totalVectors),
        p.2 ≤ 2 * 2 ∧ mget stW.idMap p.1 = some h.meta ∧
        h.distance = Real.sqrt (p.2 : ℝ) ∧
        h.similarity = round ((1 - Real.sqrt (p.2 : ℝ)) * 100)) ∧
    (∀ p ∈ knnW (min 5 stW.totalVectors), p.2 ≤ 2 * 2 →
      ∀ m, mget stW.idMap p.1 = some m →
        ∃ h ∈ searchHits stW knnW 5 2,
          h.meta = m ∧ h.distance = Real.sqrt (p.2 : ℝ) ∧
          h.similarity = round ((1 - Real.sqrt (p.2 : ℝ)) * 100)) ∧
    List.Perm (searchHits stW knnW 5 2)
      ((collectCands stW.idMap 2 (knnW (min 5 stW.totalVectors))).map toHit) ∧
    List.Sorted (fun a b : SearchHit => a.distance ≤ b.distance)
      (searchHits stW knnW 5 2) ∧
    ((∀ p ∈ knnW (min 5 stW.totalVectors),
        2 * 2 < p.2 ∨ mget stW.idMap p.1 = none) →
      searchHits stW knnW 5 2 = [])) :=
  ⟨rfl, by decide, C1_search_spec stW knnW 5 2 rfl (by decide)⟩

theorem round_formula_le_hundred {α : Type} [LinearOrderedField α] [FloorRing α]
    (x : α) (hx : 0 ≤ x) : round ((1 - x) * 100) ≤ 100 := by
  rw [round_eq]
  have hle : (1 - x) * 100 + 1/2 ≤ (201/2 : α) := by nlinarith
  have h100 : ⌊(201/2 : α)⌋ = 100 := by
    rw [Int.floor_eq_iff]
    constructor <;> norm_num
  calc ⌊(1 - x) * 100 + 1/2⌋ ≤ ⌊(201/2 : α)⌋ := Int.floor_le_floor hle
    _ = 100 := h100

theorem round_formula_neg {α : Type} [LinearOrderedField α] [FloorRing α]
    (x : α) (hx : 1005/1000 < x) : round ((1 - x) * 100) < 0 := by
  rw [round_eq]
  have h0 : (1 - x) * 100 + 1/2 < ((0 : ℤ) : α) := by
    push_cast
    nlinarith
  exact Int.floor_lt.mpr h0

theorem bestFold_characterize (threshold : ℚ) (users : List (DbUser × Option ℚ)) :
    ∀ (acc : Option LinMatch) (m : LinMatch),
      bestFold threshold acc users = some m →
      acc = some m ∨
        ∃ u d, (u, some d) ∈ users ∧ m = ⟨u, d, simRound d⟩ ∧ d < threshold := by
  induction users with
  | nil =>
    intro acc m h
    left
    exact h
  | cons p rest ih =>
    intro acc m h
    match p with
    | (u, none) =>
      rw [bestFold] at h
      rcases ih acc m h with h1 | ⟨u2, d2, hm, he, hlt⟩
      · left; exact h1
      · right; exact ⟨u2, d2, List.mem_cons_of_mem _ hm, he, hlt⟩
    | (u, some d) =>
      by_cases hc : d < threshold ∧ beatsBest d acc = true
      · rw [bestFold, if_pos hc] at h
        rcases ih _ m h with h1 | ⟨u2, d2, hm, he, hlt⟩
        · right
          refine ⟨u, d, List.mem_cons_self _ _, ?_, hc.1⟩
          exact (Option.some_inj.mp h1).symm
        · right; exact ⟨u2, d2, List.mem_cons_of_mem _ hm, he, hlt⟩
      · rw [bestFold, if_neg hc] at h
        rcases ih acc m h with h1 | ⟨u2, d2, hm, he, hlt⟩
        · left; exact h1
        · right; exact ⟨u2, d2, List.mem_cons_of_mem _ hm, he, hlt⟩

/-- Claim C9 amended: the similarity round((1 − distance) × 100) reported by
the index search and by the linear fallback is at most 100 and is not clamped
below zero; a distance above 1.005 yields a strictly negative similarity,
while distances in (1, 1.005] round up to exactly 0. -/
theorem C9_similarity_range (st : HNSWState) (searchKnn : Nat → List (Nat × ℚ))
    (k : Nat) (t thr : ℚ) (users : List (DbUser × Option ℚ))
    (hd : ∀ p ∈ users, ∀ d : ℚ, p.2 = some d → 0 ≤ d) :
    (∀ h ∈ searchHits st searchKnn k t,
      h.similarity ≤ 100 ∧ ((1005/1000 : ℝ) < h.distance → h.similarity < 0)) ∧
    (∀ m : LinMatch, findBestMatch thr users = some m →
      m.similarity ≤ 100 ∧ ((1005/1000 : ℚ) < m.distance → m.similarity < 0)) := by
  constructor
  · intro h hh
    unfold searchHits at hh
    rcases List.mem_map.mp hh with ⟨c, _, hch⟩
    subst hch
    constructor
    · exact round_formula_le_hundred _ (Real.sqrt_nonneg _)
    · intro hgt
      exact round_formula_neg _ hgt
  · intro m hm
    rcases bestFold_characterize thr users none m hm with h1 | ⟨u, d, hmem, he, _⟩
    · exact Option.noConfusion h1
    · subst he
      have hd0 : 0 ≤ d := hd (u, some d) hmem d rfl
      constructor
      · exact round_formula_le_hundred d hd0
      · intro hgt
        exact round_formula_neg d hgt

/-- User list for the C9 witness. -/
def usersW : List (DbUser × Option ℚ) := [(⟨1, "a", "b", 0⟩, some 2)]

/-- Witness for the amended C9 on concrete search and fallback inputs. -/
theorem C9_similarity_range_witness :
    (∀ p ∈ usersW, ∀ d : ℚ, p.2 = some d → 0 ≤ d) ∧
    ((∀ h ∈ searchHits stW knnW 5 2,
      h.similarity ≤ 100 ∧ ((1005/1000 : ℝ) < h.distance → h.similarity < 0)) ∧
    (∀ m : LinMatch, findBestMatch 3 usersW = some m →
      m.similarity ≤ 100 ∧ ((1005/1000 : ℚ) < m.distance → m.similarity < 0))) := by
  have hd : ∀ p ∈ usersW, ∀ d : ℚ, p.2 = some d → 0 ≤ d := by
    intro p hp d hde
    simp only [usersW, List.mem_singleton] at hp
    subst hp
    simp only [Option.some_inj] at hde
    subst hde
    norm_num
  exact ⟨hd, C9_similarity_range stW knnW 5 2 3 usersW hd⟩

theorem collectCands_cons_keep {idMap : List (Nat × UserMeta)} {t : ℚ}
    {l : Nat} {d : ℚ} {rest : List (Nat × ℚ)} {m : UserMeta}
    (h1 : ¬(t * t < d)) (h2 : mget idMap l = some m) :
    collectCands idMap t ((l, d) :: rest) =
      ⟨l, m, d⟩ :: collectCands idMap t rest := by
  rw [collectCands, if_neg h1, h2]

/-- Metadata of the single user in the C9 counterexample index. -/
def metaN : UserMeta := ⟨4, "n4", "nm", 0⟩

/-- One-vector initialized index for the C9 counterexample. -/
def stN : HNSWState := ⟨[(0, metaN)], [(4, 0)], 1, true, 1, 1⟩

/-- Library oracle reporting squared distance 1.004004 for label 0. -/
def knnN : Nat → List (Nat × ℚ) := fun _ => [(0, 1004004/1000000)]

theorem searchN_eval : search stN knnN 5 2 = [⟨0, metaN, 1004004/1000000⟩] := by
  rw [search_eq stN knnN 5 2 rfl (by decide)]
  rw [show knnN (min 5 stN.totalVectors) = [(0, 1004004/1000000)] from rfl]
  rw [collectCands_cons_keep (by norm_num)
    (show mget stN.idMap 0 = some metaN from rfl)]
  rfl

theorem sqrtN : Real.sqrt ((1004004/1000000 : ℚ) : ℝ) = 501/500 := by
  have h : ((1004004/1000000 : ℚ) : ℝ) = (501/500 : ℝ) ^ 2 := by
    norm_num
  rw [h, Real.sqrt_sq (by norm_num : (0:ℝ) ≤ 501/500)]

theorem roundN : round ((1 - (501/500 : ℝ)) * 100) = 0 := by
  have h : (1 - (501/500 : ℝ)) * 100 = -(1/5) := by norm_num
  rw [h, round_eq]
  have h2 : (-(1/5 : ℝ) + 1/2) = 3/10 := by norm_num
  rw [h2, Int.floor_eq_iff]
  constructor <;> norm_num

/-- Claim C9 fails as stated: the search hit at squared distance 1.004004 has
Euclidean distance 1.002 > 1 yet similarity Math.round(−0.2) = 0, which is not
negative — JavaScript Math.round sends distances in (1, 1.005] to 0. -/
theorem C9_counterexample :
    searchHits stN knnN 5 2 = [⟨metaN, (501/500 : ℝ), 0⟩] ∧
    (1 : ℝ) < 501/500 := by
  constructor
  · have htoHit : toHit ⟨0, metaN, 1004004/1000000⟩ = ⟨metaN, (501/500 : ℝ), 0⟩ := by
      unfold toHit
      rw [show (((⟨0, metaN, 1004004/1000000⟩ : Cand).d2 : ℚ) : ℝ) =
        ((1004004/1000000 : ℚ) : ℝ) from rfl]
      rw [sqrtN, roundN]
    unfold searchHits
    rw [searchN_eval]
    simp only [List.map_cons, List.map_nil]
    rw [htoHit]
  · norm_num

theorem mem_mset_strong {β : Type} {m : List (Nat × β)} {k : Nat} {v : β}
    {q : Nat × β} (hnd : (keys m).Nodup) (h : q ∈ mset m k v) :
    (q ∈ m ∧ q.1 ≠ k) ∨ q = (k, v) := by
  induction m with
  | nil =>
    simp [mset] at h
    right
    exact h
  | cons p rest ih =>
    simp only [keys_cons, List.nodup_cons] at hnd
    by_cases hp : p.1 = k
    · simp only [mset, hp, if_pos] at h
      rcases List.mem_cons.mp h with h1 | h1
      · right; exact h1
      · left
        refine ⟨List.mem_cons_of_mem _ h1, ?_⟩
        intro he
        exact hnd.1 (by
          rw [hp, ← he]
          exact List.mem_map.mpr ⟨q, h1, rfl⟩)
    · simp only [mset, hp, if_neg, not_false_iff] at h
      rcases List.mem_cons.mp h with h1 | h1
      · left
        exact ⟨h1 ▸ List.mem_cons_self p rest, h1 ▸ hp⟩
      · rcases ih hnd.2 h1 with ⟨h2, h3⟩ | h2
        · left; exact ⟨List.mem_cons_of_mem _ h2, h3⟩
        · right; exact h2

/-- Well-formedness invariant tying the two side maps, the counters and the
label allocator together; it holds in every state reachable from the empty
initialized index. -/
structure Inv (st : HNSWState) : Prop where
  counts : st.totalVectors = st.idMap.length
  counts2 : st.idMap.length = st.reverseIdMap.length
  ndLabels : (keys st.idMap).Nodup
  ndUsers : (keys st.reverseIdMap).Nodup
  labelsLt : ∀ p ∈ st.idMap, p.1 < st.nextLabel
  fwdMap : ∀ p ∈ st.idMap, mget st.reverseIdMap p.2.userId = some p.1
  bwdMap : ∀ q ∈ st.reverseIdMap, ∃ m, mget st.idMap q.2 = some m ∧ m.userId = q.1
  tvLe : st.totalVectors ≤ st.elementCount

theorem inv_empty : Inv initializedEmpty := by
  refine ⟨rfl, rfl, List.nodup_nil, List.nodup_nil, ?_, ?_, ?_, le_refl _⟩
  · intro p hp; simp [initializedEmpty] at hp
  · intro p hp; simp [initializedEmpty] at hp
  · intro q hq; simp [initializedEmpty] at hq

theorem label_not_in_keys {st : HNSWState} (h : Inv st) :
    st.nextLabel ∉ keys st.idMap := by
  intro hmem
  rcases List.mem_map.mp hmem with ⟨p, hp, hpk⟩
  have := h.labelsLt p hp
  omega

theorem inv_updateUserGo_success {st : HNSWState} (h : Inv st) (u : Nat)
    (m : UserMeta) (label : Nat)
    (hg : mget st.reverseIdMap u = some label) :
    Inv { st with
      nextLabel := st.nextLabel + 1,
      elementCount := st.elementCount + 1,
      idMap := mset (mdel st.idMap label) st.nextLabel { m with userId := u },
      reverseIdMap := mset st.reverseIdMap u st.nextLabel } := by
  have hul : (u, label) ∈ st.reverseIdMap := mget_mem hg
  rcases h.bwdMap (u, label) hul with ⟨m0, hm0, hm0u⟩
  have hlk : label ∈ keys st.idMap := by
    rw [← mget_isSome_iff, hm0]
    rfl
  have hut : u ∈ keys st.reverseIdMap := List.mem_map.mpr ⟨(u, label), hul, rfl⟩
  have hnewNot : st.nextLabel ∉ keys (mdel st.idMap label) := by
    intro hmem
    rcases List.mem_map.mp hmem with ⟨p, hp, hpk⟩
    rcases mem_mdel hp with ⟨hpin, _⟩
    have := h.labelsLt p hpin
    omega
  have hlenId : (mset (mdel st.idMap label) st.nextLabel
      { m with userId := u }).length = st.idMap.length := by
    rw [length_mset_of_not_mem _ hnewNot]
    have := length_mdel_of_mem h.ndLabels hlk
    omega
  refine ⟨?_, ?_, ?_, ?_, ?_, ?_, ?_, ?_⟩
  · show st.totalVectors = _
    rw [hlenId]
    exact h.counts
  · show _ = (mset st.reverseIdMap u st.nextLabel).length
    rw [hlenId, length_mset_of_mem _ hut]
    exact h.counts2
  · exact nodup_keys_mset _ (nodup_keys_mdel label h.ndLabels)
  · rw [keys_mset_of_mem _ hut]
    exact h.ndUsers
  · intro p hp
    show p.1 < st.nextLabel + 1
    rcases mem_mset_strong (nodup_keys_mdel label h.ndLabels) hp with ⟨h1, _⟩ | h1
    · rcases mem_mdel h1 with ⟨h2, _⟩
      have := h.labelsLt p h2
      omega
    · rw [h1]
      omega
  · intro p hp
    rcases mem_mset_strong (nodup_keys_mdel label h.ndLabels) hp with ⟨h1, hne⟩ | h1
    · rcases mem_mdel h1 with ⟨h2, hnl⟩
      have hfw := h.fwdMap p h2
      have hpu : p.2.userId ≠ u := by
        intro he
        rw [he, hg] at hfw
        exact hnl (Option.some_inj.mp hfw).symm
      show mget (mset st.reverseIdMap u st.nextLabel) p.2.userId = some p.1
      rw [mget_mset_ne _ _ hpu]
      exact hfw
    · rw [h1]
      show mget (mset st.reverseIdMap u st.nextLabel) u = some st.nextLabel
      exact mget_mset_self _ _ _
  · intro q hq
    rcases mem_mset_strong h.ndUsers hq with ⟨h1, hne⟩ | h1
    · rcases h.bwdMap q h1 with ⟨m1, hm1, hm1u⟩
      have hq2lt : q.2 < st.nextLabel := by
        have := h.labelsLt (q.2, m1) (mget_mem hm1)
        exact this
      have hq2ne : q.2 ≠ st.nextLabel := by omega
      have hq2nl : q.2 ≠ label := by
        intro he
        rw [he, hm0] at hm1
        have : m1 = m0 := (Option.some_inj.mp hm1).symm
        rw [this, hm0u] at hm1u
        exact hne hm1u.symm
      refine ⟨m1, ?_, hm1u⟩
      show mget (mset (mdel st.idMap label) st.nextLabel _) q.2 = some m1
      rw [mget_mset_ne _ _ hq2ne, mget_mdel_ne _ hq2nl]
      exact hm1
    · rw [h1]
      refine ⟨{ m with userId := u }, ?_, rfl⟩
      show mget (mset (mdel st.idMap label) st.nextLabel _) st.nextLabel = _
      exact mget_mset_self _ _ _
  · show st.totalVectors ≤ st.elementCount + 1
    have := h.tvLe
    omega

theorem inv_nextLabel_bump {st : HNSWState} (h : Inv st) :
    Inv { st with nextLabel := st.nextLabel + 1 } := by
  refine ⟨h.counts, h.counts2, h.ndLabels, h.ndUsers, ?_, h.fwdMap, h.bwdMap, h.tvLe⟩
  intro p hp
  show p.1 < st.nextLabel + 1
  have := h.labelsLt p hp
  omega

theorem inv_addUser_fresh_success {st : HNSWState} (h : Inv st) (u : Nat)
    (m : UserMeta) (hg : mget st.reverseIdMap u = none) :
    Inv { st with
      nextLabel := st.nextLabel + 1,
      elementCount := st.elementCount + 1,
      idMap := mset st.idMap st.nextLabel { m with userId := u },
      reverseIdMap := mset st.reverseIdMap u st.nextLabel,
      totalVectors := st.totalVectors + 1 } := by
  have hun : u ∉ keys st.reverseIdMap := (mget_eq_none_iff _ _).mp hg
  have hnl : st.nextLabel ∉ keys st.idMap := label_not_in_keys h
  refine ⟨?_, ?_, ?_, ?_, ?_, ?_, ?_, ?_⟩
  · show st.totalVectors + 1 = _
    rw [length_mset_of_not_mem _ hnl, h.counts]
  · show _ = _
    rw [length_mset_of_not_mem _ hnl, length_mset_of_not_mem _ hun, h.counts2]
  · exact nodup_keys_mset _ h.ndLabels
  · exact nodup_keys_mset _ h.ndUsers
  · intro p hp
    show p.1 < st.nextLabel + 1
    rcases mem_mset_strong h.ndLabels hp with ⟨h1, _⟩ | h1
    · have := h.labelsLt p h1
      omega
    · rw [h1]
      omega
  · intro p hp
    rcases mem_mset_strong h.ndLabels hp with ⟨h1, _⟩ | h1
    · have hfw := h.fwdMap p h1
      have hpu : p.2.userId ≠ u := by
        intro he
        rw [he, hg] at hfw
        exact Option.noConfusion hfw
      show mget (mset st.reverseIdMap u st.nextLabel) p.2.userId = some p.1
      rw [mget_mset_ne _ _ hpu]
      exact hfw
    · rw [h1]
      show mget (mset st.reverseIdMap u st.nextLabel) u = some st.nextLabel
      exact mget_mset_self _ _ _
  · intro q hq
    rcases mem_mset_strong h.ndUsers hq with ⟨h1, _⟩ | h1
    · rcases h.bwdMap q h1 with ⟨m1, hm1, hm1u⟩
      have hq2ne : q.2 ≠ st.nextLabel := by
        have := h.labelsLt (q.2, m1) (mget_mem hm1)
        omega
      refine ⟨m1, ?_, hm1u⟩
      show mget (mset st.idMap st.nextLabel _) q.2 = some m1
      rw [mget_mset_ne _ _ hq2ne]
      exact hm1
    · rw [h1]
      refine ⟨{ m with userId := u }, ?_, rfl⟩
      show mget (mset st.idMap st.nextLabel _) st.nextLabel = _
      exact mget_mset_self _ _ _
  · show st.totalVectors + 1 ≤ st.elementCount + 1
    have := h.tvLe
    omega

theorem inv_removeUser_success {st : HNSWState} (h : Inv st) (u : Nat)
    (label : Nat) (hg : mget st.reverseIdMap u = some label) :
    Inv { st with
      idMap := mdel st.idMap label,
      reverseIdMap := mdel st.reverseIdMap u,
      totalVectors := st.totalVectors - 1 } := by
  have hul : (u, label) ∈ st.reverseIdMap := mget_mem hg
  rcases h.bwdMap (u, label) hul with ⟨m0, hm0, hm0u⟩
  have hlk : label ∈ keys st.idMap := by
    rw [← mget_isSome_iff, hm0]
    rfl
  have hut : u ∈ keys st.reverseIdMap := List.mem_map.mpr ⟨(u, label), hul, rfl⟩
  have hld := length_mdel_of_mem h.ndLabels hlk
  have hrd := length_mdel_of_mem h.ndUsers hut
  refine ⟨?_, ?_, nodup_keys_mdel _ h.ndLabels, nodup_keys_mdel _ h.ndUsers,
    ?_, ?_, ?_, ?_⟩
  · show st.totalVectors - 1 = (mdel st.idMap label).length
    have := h.counts
    omega
  · show (mdel st.idMap label).length = (mdel st.reverseIdMap u).length
    have := h.counts2
    omega
  · intro p hp
    exact h.labelsLt p (mem_mdel hp).1
  · intro p hp
    rcases mem_mdel hp with ⟨h1, hnl⟩
    have hfw := h.fwdMap p h1
    have hpu : p.2.userId ≠ u := by
      intro he
      rw [he, hg] at hfw
      exact hnl (Option.some_inj.mp hfw).symm
    show mget (mdel st.reverseIdMap u) p.2.userId = some p.1
    rw [mget_mdel_ne _ hpu]
    exact hfw
  · intro q hq
    rcases mem_mdel hq with ⟨h1, hne⟩
    rcases h.bwdMap q h1 with ⟨m1, hm1, hm1u⟩
    have hq2nl : q.2 ≠ label := by
      intro he
      rw [he, hm0] at hm1
      have hm10 : m1 = m0 := (Option.some_inj.mp hm1).symm
      rw [hm10, hm0u] at hm1u
      exact hne hm1u.symm
    refine ⟨m1, ?_, hm1u⟩
    show mget (mdel st.idMap label) q.2 = some m1
    rw [mget_mdel_ne _ hq2nl]
    exact hm1
  · show st.totalVectors - 1 ≤ st.elementCount
    have := h.tvLe
    omega

theorem inv_updateUserGo {st : HNSWState} (h : Inv st) (u : Nat) (m : UserMeta) :
    Inv (updateUserGo st u m).st := by
  unfold updateUserGo
  rcases hg : mget st.reverseIdMap u with _ | label
  · exact h
  · dsimp only
    by_cases hfull : graphFull st.elementCount = true
    · rw [if_pos hfull]
      exact inv_nextLabel_bump h
    · rw [if_neg hfull]
      exact inv_updateUserGo_success h u m label hg

theorem inv_addUser {st : HNSWState} (h : Inv st) (u : Nat) (m : UserMeta) :
    Inv (addUser st u m).st := by
  unfold addUser
  by_cases hinit : st.isInitialized = false
  · rw [if_pos hinit]
    exact h
  · rw [if_neg hinit]
    rcases hg : mget st.reverseIdMap u with _ | label
    · rw [if_neg (by simp)]
      dsimp only
      by_cases hfull : graphFull st.elementCount = true
      · rw [if_pos hfull]
        exact inv_nextLabel_bump h
      · rw [if_neg hfull]
        by_cases hmod : (st.totalVectors + 1) % 100 = 0
        · rw [if_pos hmod]
          exact inv_addUser_fresh_success h u m hg
        · rw [if_neg hmod]
          exact inv_addUser_fresh_success h u m hg
    · have hc : (some label).isSome = true := rfl
      rw [if_pos hc]
      exact inv_updateUserGo h u m

theorem inv_updateUser {st : HNSWState} (h : Inv st) (u : Nat) (m : UserMeta) :
    Inv (updateUser st u m).st := by
  unfold updateUser
  by_cases hc : (mget st.reverseIdMap u).isSome = false
  · rw [if_pos hc]
    exact inv_addUser h u m
  · rw [if_neg hc]
    exact inv_updateUserGo h u m

theorem inv_removeUser {st : HNSWState} (h : Inv st) (u : Nat) :
    Inv (removeUser st u).st := by
  unfold removeUser
  rcases hg : mget st.reverseIdMap u with _ | label
  · exact h
  · exact inv_removeUser_success h u label hg

theorem inv_applyOp {st : HNSWState} (h : Inv st) (op : Op) :
    Inv (applyOp st op) := by
  cases op with
  | add u m => exact inv_addUser h u m
  | update u m => exact inv_updateUser h u m
  | remove u => exact inv_removeUser h u

theorem inv_applyOps (ops : List Op) : ∀ st, Inv st → Inv (applyOps st ops) := by
  induction ops with
  | nil =>
    intro st h
    exact h
  | cons op rest ih =>
    intro st h
    exact ih _ (inv_applyOp h op)

theorem updateUserGo_labels_fresh (st : HNSWState) (u : Nat) (m : UserMeta) :
    st.nextLabel ≤ (updateUserGo st u m).st.nextLabel ∧
    ∀ q ∈ (updateUserGo st u m).st.idMap,
      q.1 ∈ keys st.idMap ∨ st.nextLabel ≤ q.1 := by
  unfold updateUserGo
  rcases mget st.reverseIdMap u with _ | label
  · exact ⟨le_refl _, fun q hq => Or.inl (List.mem_map.mpr ⟨q, hq, rfl⟩)⟩
  · dsimp only
    by_cases hfull : graphFull st.elementCount = true
    · rw [if_pos hfull]
      exact ⟨Nat.le_succ _, fun q hq => Or.inl (List.mem_map.mpr ⟨q, hq, rfl⟩)⟩
    · rw [if_neg hfull]
      refine ⟨Nat.le_succ _, ?_⟩
      intro q hq
      rcases mem_mset hq with h1 | h1
      · exact Or.inl (List.mem_map.mpr ⟨q, (mem_mdel h1).1, rfl⟩)
      · right
        rw [h1]

theorem addUser_labels_fresh (st : HNSWState) (u : Nat) (m : UserMeta) :
    st.nextLabel ≤ (addUser st u m).st.nextLabel ∧
    ∀ q ∈ (addUser st u m).st.idMap,
      q.1 ∈ keys st.idMap ∨ st.nextLabel ≤ q.1 := by
  unfold addUser
  by_cases hinit : st.isInitialized = false
  · rw [if_pos hinit]
    exact ⟨le_refl _, fun q hq => Or.inl (List.mem_map.mpr ⟨q, hq, rfl⟩)⟩
  · rw [if_neg hinit]
    rcases mget st.reverseIdMap u with _ | label
    · rw [if_neg (by simp)]
      dsimp only
      by_cases hfull : graphFull st.elementCount = true
      · rw [if_pos hfull]
        exact ⟨Nat.le_succ _, fun q hq => Or.inl (List.mem_map.mpr ⟨q, hq, rfl⟩)⟩
      · rw [if_neg hfull]
        by_cases hmod : (st.totalVectors + 1) % 100 = 0
        · rw [if_pos hmod]
          refine ⟨Nat.le_succ _, ?_⟩
          intro q hq
          rcases mem_mset hq with h1 | h1
          · exact Or.inl (List.mem_map.mpr ⟨q, h1, rfl⟩)
          · right
            rw [h1]
        · rw [if_neg hmod]
          refine ⟨Nat.le_succ _, ?_⟩
          intro q hq
          rcases mem_mset hq with h1 | h1
          · exact Or.inl (List.mem_map.mpr ⟨q, h1, rfl⟩)
          · right
            rw [h1]
    · have hc : (some label).isSome = true := rfl
      rw [if_pos hc]
      exact updateUserGo_labels_fresh st u m

theorem applyOp_labels_fresh (st : HNSWState) (op : Op) :
    st.nextLabel ≤ (applyOp st op).nextLabel ∧
    ∀ q ∈ (applyOp st op).idMap, q.1 ∈ keys st.idMap ∨ st.nextLabel ≤ q.1 := by
  cases op with
  | add u m => exact addUser_labels_fresh st u m
  | update u m =>
    show st.nextLabel ≤ (updateUser st u m).st.nextLabel ∧
      ∀ q ∈ (updateUser st u m).st.idMap,
        q.1 ∈ keys st.idMap ∨ st.nextLabel ≤ q.1
    unfold updateUser
    by_cases hc : (mget st.reverseIdMap u).isSome = false
    · rw [if_pos hc]
      exact addUser_labels_fresh st u m
    · rw [if_neg hc]
      exact updateUserGo_labels_fresh st u m
  | remove u =>
    show st.nextLabel ≤ (removeUser st u).st.nextLabel ∧
      ∀ q ∈ (removeUser st u).st.idMap,
        q.1 ∈ keys st.idMap ∨ st.nextLabel ≤ q.1
    unfold removeUser
    rcases mget st.reverseIdMap u with _ | label
    · exact ⟨le_refl _, fun q hq => Or.inl (List.mem_map.mpr ⟨q, hq, rfl⟩)⟩
    · refine ⟨le_refl _, ?_⟩
      intro q hq
      exact Or.inl (List.mem_map.mpr ⟨q, (mem_mdel hq).1, rfl⟩)

/-- Claim C3: in every index state reachable from the empty initialized index
by addUser, updateUser and removeUser sequences, size() equals the number of
live labelToMeta entries and equals the number of userToLabel entries; each
userId maps to at most one live label (the userToLabel keys are unique and
each maps to a live idMap row carrying that userId); and labels are assigned
strictly monotonically and never reused: every live label is below nextLabel,
nextLabel never decreases, and any label a further operation introduces is
either an existing live label or at least the current nextLabel. -/
theorem C3_index_invariants (ops : List Op) :
    size (applyOps initializedEmpty ops) =
      (applyOps initializedEmpty ops).idMap.length ∧
    (applyOps initializedEmpty ops).idMap.length =
      (applyOps initializedEmpty ops).reverseIdMap.length ∧
    (keys (applyOps initializedEmpty ops).reverseIdMap).Nodup ∧
    (∀ q ∈ (applyOps initializedEmpty ops).reverseIdMap,
      ∃ m, mget (applyOps initializedEmpty ops).idMap q.2 = some m ∧
        m.userId = q.1) ∧
    (∀ p ∈ (applyOps initializedEmpty ops).idMap,
      p.1 < (applyOps initializedEmpty ops).nextLabel) ∧
    (∀ op : Op,
      (applyOps initializedEmpty ops).nextLabel ≤
        (applyOp (applyOps initializedEmpty ops) op).nextLabel ∧
      ∀ q ∈ (applyOp (applyOps initializedEmpty ops) op).idMap,
        q.1 ∈ keys (applyOps initializedEmpty ops).idMap ∨
          (applyOps initializedEmpty ops).nextLabel ≤ q.1) := by
  have hinv : Inv (applyOps initializedEmpty ops) :=
    inv_applyOps ops initializedEmpty inv_empty
  exact ⟨hinv.counts, hinv.counts2, hinv.ndUsers, hinv.bwdMap, hinv.labelsLt,
    fun op => applyOp_labels_fresh _ op⟩

/-- Action of one regex replace on a single slash-free segment. -/
def segAct (cls : Char → Bool) (minRun : Nat) (consume : Nat → Nat)
    (repl : List Char) (s : List Char) : List Char :=
  if minRun ≤ (s.takeWhile cls).length then
    repl ++ s.drop (consume (s.takeWhile cls).length)
  else s

theorem segAct_no_slash (cls : Char → Bool) (minRun : Nat)
    (consume : Nat → Nat) (repl : List Char) (hrepl : '/' ∉ repl)
    {s : List Char} (hs : '/' ∉ s) :
    '/' ∉ segAct cls minRun consume repl s := by
  unfold segAct
  split
  · intro hmem
    rcases List.mem_append.mp hmem with h1 | h1
    · exact hrepl h1
    · exact hs ((List.drop_sublist _ _).subset h1)
  · exact hs

theorem takeWhile_append_stop (p : Char → Bool) (t : List Char)
    (ht : ∀ c ∈ t.head?, p c = false) :
    ∀ s : List Char, (s ++ t).takeWhile p = s.takeWhile p := by
  intro s
  induction s with
  | nil =>
    simp only [List.nil_append, List.takeWhile_nil]
    cases t with
    | nil => rfl
    | cons c t2 =>
      have hc := ht c (by simp)
      rw [List.takeWhile_cons_of_neg (by simp [hc])]
  | cons c s2 ih =>
    by_cases hp : p c = true
    · simp only [List.cons_append, List.takeWhile_cons_of_pos hp, ih]
    · simp only [List.cons_append,
        List.takeWhile_cons_of_neg (by simpa using hp)]

theorem regexPass_append_flat (cls : Char → Bool) (minRun : Nat)
    (consume : Nat → Nat) (repl : List Char) :
    ∀ (s : List Char), '/' ∉ s → ∀ t,
      regexPass cls minRun consume repl (s ++ t) =
        s ++ regexPass cls minRun consume repl t := by
  intro s
  induction s with
  | nil =>
    intro _ t
    simp
  | cons c s2 ih =>
    intro hs t
    have hc : ¬(c = '/') := fun he => hs (List.mem_cons.mpr (Or.inl he.symm))
    have hstep : regexPass cls minRun consume repl (c :: (s2 ++ t)) =
        c :: regexPass cls minRun consume repl (s2 ++ t) := by
      simp only [regexPass]
      rw [if_neg (fun hand => hc hand.1)]
    simp only [List.cons_append]
    rw [hstep, ih (fun hm => hs (List.mem_cons_of_mem _ hm)) t]

theorem regexPass_joinSegs (cls : Char → Bool) (minRun : Nat)
    (consume : Nat → Nat) (repl : List Char)
    (hslash : cls '/' = false)
    (hcons : ∀ n, minRun ≤ n → consume n ≤ n) :
    ∀ segs : List (List Char), (∀ s ∈ segs, '/' ∉ s) →
      regexPass cls minRun consume repl (joinSegs segs) =
        joinSegs (segs.map (segAct cls minRun consume repl)) := by
  intro segs
  induction segs with
  | nil =>
    intro _
    show regexPass cls minRun consume repl [] = []
    simp only [regexPass]
  | cons s rest ih =>
    intro hs
    have hsrest : ∀ x ∈ rest, '/' ∉ x :=
      fun x hx => hs x (List.mem_cons_of_mem _ hx)
    have hshead : '/' ∉ s := hs s (List.mem_cons_self _ _)
    have hjoin : ∀ c ∈ (joinSegs rest).head?, cls c = false := by
      intro c hc
      cases rest with
      | nil => simp [joinSegs] at hc
      | cons r rs =>
        have hc2 : c = '/' := by
          simp only [joinSegs, List.head?_cons, Option.mem_def,
            Option.some.injEq] at hc
          exact hc.symm
        rw [hc2]
        exact hslash
    have htw : ((s ++ joinSegs rest).takeWhile cls) = s.takeWhile cls :=
      takeWhile_append_stop cls (joinSegs rest) hjoin s
    simp only [joinSegs, List.map_cons]
    rw [show regexPass cls minRun consume repl ('/' :: (s ++ joinSegs rest)) =
        (if '/' = '/' ∧ minRun ≤ ((s ++ joinSegs rest).takeWhile cls).length then
          '/' :: repl ++ regexPass cls minRun consume repl
            ((s ++ joinSegs rest).drop
              (consume ((s ++ joinSegs rest).takeWhile cls).length))
        else '/' :: regexPass cls minRun consume repl (s ++ joinSegs rest))
      from by simp only [regexPass]]
    by_cases hcond : minRun ≤ (s.takeWhile cls).length
    · rw [if_pos ⟨rfl, by rw [htw]; exact hcond⟩]
      have hrun_le : (s.takeWhile cls).length ≤ s.length :=
        (List.takeWhile_sublist cls).length_le
      have hcle : consume (s.takeWhile cls).length ≤ s.length :=
        le_trans (hcons _ hcond) hrun_le
      rw [htw]
      rw [List.drop_append_of_le_length hcle]
      have hdropfree : '/' ∉ s.drop (consume (s.takeWhile cls).length) :=
        fun hm => hshead ((List.drop_sublist _ _).subset hm)
      rw [regexPass_append_flat cls minRun consume repl _ hdropfree (joinSegs rest)]
      rw [ih hsrest]
      unfold segAct
      rw [if_pos hcond]
      simp [List.append_assoc]
    · rw [if_neg (by
        intro hand
        rw [htw] at hand
        exact hcond hand.2)]
      rw [regexPass_append_flat cls minRun consume repl s hshead (joinSegs rest)]
      rw [ih hsrest]
      unfold segAct
      rw [if_neg hcond]

theorem takeWhile_colon_head (cls : Char → Bool) (hcolon : cls ':' = false)
    (l : List Char) : ((':' :: l).takeWhile cls) = [] := by
  rw [List.takeWhile_cons_of_neg (by simp [hcolon])]

theorem segAct_colon_head (cls : Char → Bool) (minRun : Nat)
    (consume : Nat → Nat) (repl : List Char)
    (hcolon : cls ':' = false) (hmin : 1 ≤ minRun) (l : List Char) :
    segAct cls minRun consume repl (':' :: l) = ':' :: l := by
  unfold segAct
  rw [takeWhile_colon_head cls hcolon]
  rw [if_neg (by simp; omega)]

theorem normSeg_eq_composite (s : List Char) :
    segAct isUuidChar 36 (fun _ => 36) uuidRepl
      (segAct isCiChar 6 (fun k => min k 20) ciRepl
        (segAct isIdChar 1 (fun k => k) idRepl s)) = normSeg s := by
  by_cases hd : 1 ≤ (s.takeWhile isIdChar).length
  · have h1 : segAct isIdChar 1 (fun k => k) idRepl s =
        ':' :: 'i' :: 'd' :: s.drop (s.takeWhile isIdChar).length := by
      unfold segAct
      rw [if_pos hd]
      rfl
    rw [h1]
    rw [segAct_colon_head isCiChar 6 _ _ (by decide) (by omega) _]
    rw [segAct_colon_head isUuidChar 36 _ _ (by decide) (by omega) _]
    unfold normSeg
    rw [if_pos (by omega : (s.takeWhile isIdChar).length ≠ 0)]
  · have h1 : segAct isIdChar 1 (fun k => k) idRepl s = s := by
      unfold segAct
      rw [if_neg hd]
    rw [h1]
    by_cases hc : 6 ≤ (s.takeWhile isCiChar).length
    · have h2 : segAct isCiChar 6 (fun k => min k 20) ciRepl s =
          ':' :: 'c' :: 'i' :: s.drop (min (s.takeWhile isCiChar).length 20) := by
        unfold segAct
        rw [if_pos hc]
        rfl
      rw [h2, segAct_colon_head isUuidChar 36 _ _ (by decide) (by omega) _]
      unfold normSeg
      rw [if_neg (by omega), if_pos hc]
    · have h2 : segAct isCiChar 6 (fun k => min k 20) ciRepl s = s := by
        unfold segAct
        rw [if_neg hc]
      rw [h2]
      by_cases hu : 36 ≤ (s.takeWhile isUuidChar).length
      · unfold segAct normSeg
        rw [if_pos hu, if_neg (by omega), if_neg hc, if_pos hu]
        rfl
      · unfold segAct normSeg
        rw [if_neg hu, if_neg (by omega), if_neg hc, if_neg hu]

theorem segs_map_no_slash (cls : Char → Bool) (minRun : Nat)
    (consume : Nat → Nat) (repl : List Char) (hrepl : '/' ∉ repl)
    {segs : List (List Char)} (h : ∀ s ∈ segs, '/' ∉ s) :
    ∀ s ∈ segs.map (segAct cls minRun consume repl), '/' ∉ s := by
  intro s hs
  rcases List.mem_map.mp hs with ⟨s0, hs0, he⟩
  rw [← he]
  exact segAct_no_slash cls minRun consume repl hrepl (h s0 hs0)

theorem normalizeRoute_joinSegs (segs : List (List Char))
    (h : ∀ s ∈ segs, '/' ∉ s) :
    normalizeRoute (joinSegs segs) = joinSegs (segs.map normSeg) := by
  have hid : '/' ∉ idRepl := by decide
  have hci : '/' ∉ ciRepl := by decide
  unfold normalizeRoute idPass ciPass uuidPass
  rw [regexPass_joinSegs isIdChar 1 (fun k => k) idRepl (by decide)
    (fun n _ => le_refl n) segs h]
  rw [regexPass_joinSegs isCiChar 6 (fun k => min k 20) ciRepl (by decide)
    (fun n _ => min_le_left n 20) _ (segs_map_no_slash _ _ _ _ hid h)]
  rw [regexPass_joinSegs isUuidChar 36 (fun _ => 36) uuidRepl (by decide)
    (fun n hn => hn) _
    (segs_map_no_slash _ _ _ _ hci (segs_map_no_slash _ _ _ _ hid h))]
  rw [List.map_map, List.map_map]
  apply congrArg
  apply List.map_congr_left
  intro s _
  exact normSeg_eq_composite s

/-- Claim C7 fails as stated: the lowercase alphanumeric segment abc123 of
length 6 is left unchanged by _normalizeRoute — its :ci regex accepts only
uppercase letters and digits — while the claim demands the label /users/:ci. -/
theorem C7_counterexample :
    normalizeRoute (joinSegs [['u', 's', 'e', 'r', 's'],
      ['a', 'b', 'c', '1', '2', '3']]) =
      joinSegs [['u', 's', 'e', 'r', 's'], ['a', 'b', 'c', '1', '2', '3']] ∧
    joinSegs [['u', 's', 'e', 'r', 's'], ['a', 'b', 'c', '1', '2', '3']] ≠
      joinSegs [['u', 's', 'e', 'r', 's'], [':', 'c', 'i']] := by
  constructor
  · rw [normalizeRoute_joinSegs _ (by decide)]
    decide
  · decide

/-- Claim C7 amended: for every request path that is a slash-joined sequence
of slash-free segments, the recorded route label transforms each segment
independently: a segment-leading digit run collapses to ":id"; otherwise a
leading run of at least 6 uppercase letters or digits has its first
min(run, 20) characters replaced by ":ci"; otherwise, when the segment starts
with at least 36 lowercase-hex-or-dash characters, its first 36 become
":uuid"; otherwise the segment is unchanged. -/
theorem C7_route_normalization (segs : List (List Char))
    (h : ∀ s ∈ segs, '/' ∉ s) :
    normalizeRoute (joinSegs segs) = joinSegs (segs.map normSeg) :=
  normalizeRoute_joinSegs segs h

/-- Witness for the amended C7 on the path /users/123/F00BAR99. -/
theorem C7_route_normalization_witness :
    (∀ s ∈ [['u', 's', 'e', 'r', 's'], ['1', '2', '3'],
      ['F', '0', '0', 'B', 'A', 'R', '9', '9']], '/' ∉ s) ∧
    normalizeRoute (joinSegs [['u', 's', 'e', 'r', 's'], ['1', '2', '3'],
      ['F', '0', '0', 'B', 'A', 'R', '9', '9']]) =
      joinSegs ([['u', 's', 'e', 'r', 's'], ['1', '2', '3'],
        ['F', '0', '0', 'B', 'A', 'R', '9', '9']].map normSeg) :=
  ⟨by decide, C7_route_normalization _ (by decide)⟩

end FaceRec
